import Mathlib

/-!
Verification of the IceBox engine runtime core (three-tier allocator, job
system, asset layer) against its natural-language specification, via a
shallow embedding of `src/IBEngine/IBAllocator.cpp`,
`src/IBEngine/IBJobs.cpp` and `src/IBEngine/IBAsset.cpp`.  Machine integers
are modelled as `Nat` with explicit `% 2 ^ w` where wrap-around matters.
-/

namespace IceBox

/-- Fuel-based helper for `popcount`, written with structural recursion so
that the kernel can evaluate it.  `popcountAux fuel n` is the binary
popcount of `n` whenever `n ≤ fuel`. -/
def popcountAux : Nat → Nat → Nat
  | 0, _ => 0
  | fuel + 1, n => if n = 0 then 0 else popcountAux fuel (n / 2) + n % 2

/-- Number of set bits of a natural number.  Models the hardware popcount
intrinsic `IB_POPCOUNT` (`src/IBEngine/Platform/IBPlatform.h`) for values
below `2 ^ 64`. -/
def popcount (n : Nat) : Nat := popcountAux n n

theorem popcountAux_congr (fuel n : Nat) (h : n ≤ fuel) :
    popcountAux fuel n = popcount n := by
  unfold popcount
  induction fuel using Nat.strong_induction_on generalizing n with
  | _ fuel ih =>
    match fuel, n with
    | 0, n =>
      interval_cases n
      rfl
    | fuel + 1, 0 => rfl
    | fuel + 1, m + 1 =>
      have h2 : (m + 1) / 2 ≤ fuel := by omega
      have h3 : (m + 1) / 2 ≤ m := by omega
      show popcountAux fuel ((m + 1) / 2) + (m + 1) % 2 = popcountAux (m + 1) (m + 1)
      have e1 : popcountAux fuel ((m + 1) / 2) = popcountAux ((m + 1) / 2) ((m + 1) / 2) :=
        ih fuel (by omega) _ h2
      have e2 : popcountAux m ((m + 1) / 2) = popcountAux ((m + 1) / 2) ((m + 1) / 2) :=
        ih m (by omega) _ h3
      show popcountAux fuel ((m + 1) / 2) + (m + 1) % 2 = popcountAux m ((m + 1) / 2) + (m + 1) % 2
      omega

theorem popcount_zero : popcount 0 = 0 := rfl

theorem popcount_rec (n : Nat) (h : n ≠ 0) :
    popcount n = popcount (n / 2) + n % 2 := by
  match n, h with
  | m + 1, _ =>
    show popcountAux (m + 1) (m + 1) = _
    show popcountAux m ((m + 1) / 2) + (m + 1) % 2 = _
    rw [popcountAux_congr m ((m + 1) / 2) (by omega)]

theorem popcount_two_pow_sub_one (k : Nat) : popcount (2 ^ k - 1) = k := by
  induction k with
  | zero => rfl
  | succ k ih =>
    have hp : 0 < 2 ^ k := Nat.pos_pow_of_pos k (by omega)
    have hne : 2 ^ (k + 1) - 1 ≠ 0 := by
      have : 2 ^ k ≤ 2 ^ (k + 1) := Nat.pow_le_pow_right (by omega) (by omega)
      omega
    rw [popcount_rec _ hne]
    have h2 : 2 ^ (k + 1) = 2 * 2 ^ k := by rw [Nat.pow_succ]; ring
    have hdiv : (2 ^ (k + 1) - 1) / 2 = 2 ^ k - 1 := by omega
    have hmod : (2 ^ (k + 1) - 1) % 2 = 1 := by omega
    rw [hdiv, hmod, ih]

/-! ## Bit scanning (`src/IBEngine/IBAllocator.cpp` lines 240-277) -/

/-- `NoSlot` sentinel (`0xFFFFFFFFFFFFFFFF`). -/
def NoSlot : Nat := 0xFFFFFFFFFFFFFFFF

/-- `firstClearedBitIndex` (`IBAllocator.cpp` lines 240-253): computes
`popcount (v XOR (v + 1)) - 1` on 64-bit values; the `% 2 ^ 64` models the
`uint64_t` wrap of `value + 1`. -/
def firstClearedBitIndex (value : Nat) : Nat :=
  popcount (value ^^^ ((value + 1) % 2 ^ 64)) - 1

theorem exists_testBit_eq_false (v : Nat) : ∃ i, v.testBit i = false :=
  ⟨v, Nat.testBit_lt_two_pow (Nat.lt_two_pow v)⟩

theorem least_cleared_bit_lt_64 (v : Nat) (hv : v < 2 ^ 64) (hne : v ≠ 2 ^ 64 - 1) :
    Nat.find (exists_testBit_eq_false v) < 64 := by
  by_contra hge
  apply hne
  apply Nat.eq_of_testBit_eq
  intro i
  rw [Nat.testBit_two_pow_sub_one]
  by_cases hi : i < 64
  · have := Nat.find_min (exists_testBit_eq_false v) (show i < _ by omega)
    simp only [Bool.not_eq_false] at this
    simp [this, hi]
  · have h1 : v.testBit i = false := by
      apply Nat.testBit_lt_two_pow
      calc v < 2 ^ 64 := hv
        _ ≤ 2 ^ i := Nat.pow_le_pow_right (by omega) (by omega)
    simp [h1, hi]

theorem firstClearedBitIndex_eq_least (v : Nat) (hv : v < 2 ^ 64)
    (hne : v ≠ 2 ^ 64 - 1) (k : Nat) (hkf : v.testBit k = false)
    (hkmin : ∀ j < k, v.testBit j = true) : firstClearedBitIndex v = k := by
  have hps : v + 1 < 2 ^ 64 := by omega
  have hm1 : (v + 1) % 2 ^ 64 = v + 1 := Nat.mod_eq_of_lt hps
  have hkpos : 0 < 2 ^ k := Nat.two_pow_pos k
  have hse : 2 ^ (k + 1) = 2 * 2 ^ k := by rw [Nat.pow_succ]; ring
  have hmod : v % 2 ^ (k + 1) = 2 ^ k - 1 := by
    apply Nat.eq_of_testBit_eq
    intro i
    rw [Nat.testBit_mod_two_pow, Nat.testBit_two_pow_sub_one]
    by_cases h1 : i < k
    · have h2 : i < k + 1 := by omega
      simp [h1, h2, hkmin i h1]
    · by_cases h2 : i = k
      · subst h2
        simp [hkf]
      · have h3 : ¬ i < k + 1 := by omega
        simp [h1, h3]
  obtain ⟨a, hva, hv1⟩ :
      ∃ a, v = 2 ^ (k + 1) * a + (2 ^ k - 1) ∧ v + 1 = 2 ^ (k + 1) * a + 2 ^ k := by
    refine ⟨v / 2 ^ (k + 1), ?_, ?_⟩
    · conv_lhs => rw [← Nat.div_add_mod v (2 ^ (k + 1))]
      rw [hmod]
    · conv_lhs => rw [← Nat.div_add_mod v (2 ^ (k + 1))]
      rw [hmod]
      generalize 2 ^ (k + 1) * (v / 2 ^ (k + 1)) = p
      omega
  have hb1 : 2 ^ k - 1 < 2 ^ (k + 1) := by omega
  have hb2 : 2 ^ k < 2 ^ (k + 1) := by omega
  have hxor : v ^^^ (v + 1) = 2 ^ (k + 1) - 1 := by
    apply Nat.eq_of_testBit_eq
    intro i
    rw [Nat.testBit_xor, Nat.testBit_two_pow_sub_one]
    conv_lhs => rw [hv1, hva]
    rw [Nat.testBit_mul_pow_two_add _ hb1 i, Nat.testBit_mul_pow_two_add _ hb2 i]
    by_cases h1 : i < k + 1
    · simp only [if_pos h1]
      rw [Nat.testBit_two_pow_sub_one]
      by_cases h2 : i < k
      · have hne2 : k ≠ i := by omega
        simp [h1, h2, Nat.testBit_two_pow, hne2]
      · have h3 : i = k := by omega
        subst h3
        simp [h1, h2, Nat.testBit_two_pow]
    · simp only [if_neg h1]
      simp [h1, Bool.xor_self]
  unfold firstClearedBitIndex
  rw [hm1, hxor, popcount_two_pow_sub_one]
  omega

/-- The byte-granular bit mask computed at each step of the allocator's
bitmap scans (`IBAllocator.cpp` line 265): the complement (within 64 bits)
of `0xFFFFFFFFFFFFFFFF << (bitCount % 64)` when fewer than 64 bits remain,
all ones otherwise. -/
def testBitMask64 (bitCount : Nat) : Nat :=
  (2 ^ 64 - 1) ^^^ (if bitCount < 64 then ((2 ^ 64 - 1) <<< (bitCount % 64)) % 2 ^ 64 else 0)

theorem testBitMask64_of_lt (bitCount : Nat) (h : bitCount < 64) :
    testBitMask64 bitCount = 2 ^ bitCount - 1 := by
  interval_cases bitCount <;> decide

theorem testBitMask64_of_ge (bitCount : Nat) (h : 64 ≤ bitCount) :
    testBitMask64 bitCount = 2 ^ 64 - 1 := by
  unfold testBitMask64
  rw [if_neg (by omega), Nat.xor_zero]

/-- `findClearedSlot` (`IBAllocator.cpp` lines 255-277): scan 64-bit words
of a bitmap while tested bits remain, returning `chunkIndex * 64 +
firstClearedBitIndex word` for the first word whose tested bits are not
all set, and `NoSlot` when every tested bit is set.  The word list stands
for the scanned memory; `bitCount` counts the bits under test. -/
def findClearedSlotAux : List Nat → Nat → Nat → Nat
  | [], _, _ => NoSlot
  | w :: ws, bitCount, chunkIndex =>
    if bitCount = 0 then NoSlot
    else
      if w &&& testBitMask64 bitCount ≠ testBitMask64 bitCount then
        chunkIndex * 64 + firstClearedBitIndex w
      else findClearedSlotAux ws (bitCount - 64) (chunkIndex + 1)

/-- Entry point of the bitmap scan, starting at the first word. -/
def findClearedSlot (words : List Nat) (bitCount : Nat) : Nat :=
  findClearedSlotAux words bitCount 0

/-- Bit `i` of a bitmap laid out as a list of 64-bit words. -/
def bitmapTestBit (words : List Nat) (i : Nat) : Bool :=
  (words.getD (i / 64) 0).testBit (i % 64)

theorem bitmapTestBit_cons_lt (w : Nat) (ws : List Nat) (i : Nat) (h : i < 64) :
    bitmapTestBit (w :: ws) i = w.testBit i := by
  unfold bitmapTestBit
  rw [Nat.div_eq_of_lt h, Nat.mod_eq_of_lt h]
  rfl

theorem bitmapTestBit_cons_add (w : Nat) (ws : List Nat) (i : Nat) :
    bitmapTestBit (w :: ws) (i + 64) = bitmapTestBit ws i := by
  unfold bitmapTestBit
  rw [Nat.add_div_right i (by omega), Nat.add_mod_right i 64]
  rfl

theorem findClearedSlotAux_zero (ws : List Nat) (c : Nat) :
    findClearedSlotAux ws 0 c = NoSlot := by
  cases ws <;> rfl

/-- In a 64-bit word some tested (low) bit is cleared exactly when the word
masked to those bits is not all ones. -/
theorem mod_ne_all_ones_iff (w b : Nat) :
    w % 2 ^ b ≠ 2 ^ b - 1 ↔ ∃ j, j < b ∧ w.testBit j = false := by
  constructor
  · intro hne
    by_contra hall
    push_neg at hall
    apply hne
    apply Nat.eq_of_testBit_eq
    intro i
    rw [Nat.testBit_mod_two_pow, Nat.testBit_two_pow_sub_one]
    by_cases hi : i < b
    · have := hall i hi
      simp only [Bool.not_eq_false] at this
      simp [hi, this]
    · simp [hi]
  · rintro ⟨j, hj, hjf⟩ heq
    have : (w % 2 ^ b).testBit j = (2 ^ b - 1).testBit j := by rw [heq]
    rw [Nat.testBit_mod_two_pow, Nat.testBit_two_pow_sub_one] at this
    simp [hj, hjf] at this

theorem findClearedSlotAux_spec (words : List Nat) :
    ∀ (bitCount chunkIndex : Nat),
    (∀ w ∈ words, w < 2 ^ 64) → bitCount ≤ 64 * words.length →
    (findClearedSlotAux words bitCount chunkIndex = NoSlot ∧
      ∀ i < bitCount, bitmapTestBit words i = true) ∨
    (∃ r, findClearedSlotAux words bitCount chunkIndex = chunkIndex * 64 + r ∧
      r < bitCount ∧ bitmapTestBit words r = false ∧
      ∀ j < r, bitmapTestBit words j = true) := by
  induction words with
  | nil =>
    intro bitCount chunkIndex _ hbc
    left
    refine ⟨rfl, ?_⟩
    intro i hi
    simp at hbc
    omega
  | cons w ws ih =>
    intro bitCount chunkIndex hw hbc
    have hwlt : w < 2 ^ 64 := hw w (List.mem_cons_self w ws)
    have hwrest : ∀ x ∈ ws, x < 2 ^ 64 := fun x hx => hw x (List.mem_cons_of_mem w hx)
    by_cases hz : bitCount = 0
    · subst hz
      exact Or.inl ⟨findClearedSlotAux_zero _ _, by omega⟩
    have hunfold : findClearedSlotAux (w :: ws) bitCount chunkIndex =
        if w &&& testBitMask64 bitCount ≠ testBitMask64 bitCount then
          chunkIndex * 64 + firstClearedBitIndex w
        else findClearedSlotAux ws (bitCount - 64) (chunkIndex + 1) := by
      simp only [findClearedSlotAux]
      rw [if_neg hz]
    by_cases hbig : bitCount < 64
    · -- Last partial word: the mask keeps the low `bitCount` bits.
      have hmask : w &&& testBitMask64 bitCount = w % 2 ^ bitCount := by
        rw [testBitMask64_of_lt bitCount hbig, Nat.and_pow_two_sub_one_eq_mod]
      by_cases hcond : w % 2 ^ bitCount ≠ 2 ^ bitCount - 1
      · -- Some tested bit of this word is cleared.
        obtain ⟨j, hj, hjf⟩ := (mod_ne_all_ones_iff w bitCount).mp hcond
        have hwne : w ≠ 2 ^ 64 - 1 := by
          intro h
          subst h
          rw [Nat.testBit_two_pow_sub_one] at hjf
          simp [show j < 64 by omega] at hjf
        have hkf := Nat.find_spec (exists_testBit_eq_false w)
        have hfci := firstClearedBitIndex_eq_least w hwlt hwne _ hkf
          (fun j2 hj2 => by
            have := Nat.find_min (exists_testBit_eq_false w) hj2
            simpa using this)
        right
        refine ⟨firstClearedBitIndex w, ?_, ?_, ?_, ?_⟩
        · rw [hunfold, if_pos]
          rw [hmask, testBitMask64_of_lt bitCount hbig]
          exact hcond
        · rw [hfci]
          have : Nat.find (exists_testBit_eq_false w) ≤ j := Nat.find_min' _ hjf
          omega
        · rw [hfci]
          have hlt : Nat.find (exists_testBit_eq_false w) ≤ j := Nat.find_min' _ hjf
          rw [bitmapTestBit_cons_lt _ _ _ (by omega)]
          exact hkf
        · intro j2 hj2
          rw [hfci] at hj2
          have hlt : Nat.find (exists_testBit_eq_false w) ≤ j := Nat.find_min' _ hjf
          rw [bitmapTestBit_cons_lt _ _ _ (by omega)]
          have := Nat.find_min (exists_testBit_eq_false w) hj2
          simpa using this
      · -- All tested bits of the final word are set: the scan runs out.
        push_neg at hcond
        left
        have hall : ∀ i < bitCount, w.testBit i = true := by
          intro i hi
          have : (w % 2 ^ bitCount).testBit i = (2 ^ bitCount - 1).testBit i := by
            rw [hcond]
          rw [Nat.testBit_mod_two_pow, Nat.testBit_two_pow_sub_one] at this
          simpa [hi] using this
        refine ⟨?_, ?_⟩
        · rw [hunfold, if_neg, show bitCount - 64 = 0 by omega, findClearedSlotAux_zero]
          rw [hmask, testBitMask64_of_lt bitCount hbig]
          simp [hcond]
        · intro i hi
          rw [bitmapTestBit_cons_lt _ _ _ (by omega)]
          exact hall i hi
    · -- Full word: the mask is all ones.
      have hmask : w &&& testBitMask64 bitCount = w := by
        rw [testBitMask64_of_ge bitCount (by omega), Nat.and_pow_two_sub_one_eq_mod,
          Nat.mod_eq_of_lt hwlt]
      by_cases hcond : w = 2 ^ 64 - 1
      · -- This word is fully set: recurse into the rest of the bitmap.
        have hrec : findClearedSlotAux (w :: ws) bitCount chunkIndex =
            findClearedSlotAux ws (bitCount - 64) (chunkIndex + 1) := by
          rw [hunfold, if_neg]
          rw [hmask, testBitMask64_of_ge bitCount (by omega)]
          simp [hcond]
        have hwall : ∀ i < 64, w.testBit i = true := by
          intro i hi
          rw [hcond, Nat.testBit_two_pow_sub_one]
          simp [hi]
        have hrest : bitCount - 64 ≤ 64 * ws.length := by
          simp only [List.length_cons] at hbc
          omega
        rcases ih (bitCount - 64) (chunkIndex + 1) hwrest hrest with
          ⟨e, hall⟩ | ⟨r, e, hr, hf, hmin⟩
        · left
          refine ⟨by rw [hrec]; exact e, ?_⟩
          intro i hi
          by_cases hi64 : i < 64
          · rw [bitmapTestBit_cons_lt _ _ _ hi64]
            exact hwall i hi64
          · have hidef : i = (i - 64) + 64 := by omega
            rw [hidef, bitmapTestBit_cons_add]
            exact hall (i - 64) (by omega)
        · right
          refine ⟨r + 64, ?_, by omega, ?_, ?_⟩
          · rw [hrec, e]
            omega
          · rw [bitmapTestBit_cons_add]
            exact hf
          · intro j hj
            by_cases hj64 : j < 64
            · rw [bitmapTestBit_cons_lt _ _ _ hj64]
              exact hwall j hj64
            · have hjdef : j = (j - 64) + 64 := by omega
              rw [hjdef, bitmapTestBit_cons_add]
              exact hmin (j - 64) (by omega)
      · -- This fully-tested word has a cleared bit.
        have hkf := Nat.find_spec (exists_testBit_eq_false w)
        have hkmin : ∀ j < Nat.find (exists_testBit_eq_false w), w.testBit j = true := by
          intro j hj
          have := Nat.find_min (exists_testBit_eq_false w) hj
          simpa using this
        have hk64 := least_cleared_bit_lt_64 w hwlt hcond
        have hfci := firstClearedBitIndex_eq_least w hwlt hcond _ hkf hkmin
        right
        refine ⟨firstClearedBitIndex w, ?_, ?_, ?_, ?_⟩
        · rw [hunfold, if_pos]
          rw [hmask, testBitMask64_of_ge bitCount (by omega)]
          exact hcond
        · rw [hfci]
          omega
        · rw [hfci, bitmapTestBit_cons_lt _ _ _ hk64]
          exact hkf
        · intro j hj
          rw [hfci] at hj
          rw [bitmapTestBit_cons_lt _ _ _ (by omega)]
          exact hkmin j hj

/-- C10: for every 64-bit value `v` that is not all ones,
`firstClearedBitIndex v` (computed as `popcount (v XOR (v+1)) - 1`) is the
index of the least-significant zero bit of `v`; consequently
`findClearedSlot` over a bitmap returns the index of the first cleared bit
among the tested bits, or the `NoSlot` sentinel when every tested bit is
set. -/
theorem firstClearedBitIndex_findClearedSlot_correct :
    (∀ v : Nat, v < 2 ^ 64 → v ≠ 2 ^ 64 - 1 →
      v.testBit (firstClearedBitIndex v) = false ∧
      ∀ j < firstClearedBitIndex v, v.testBit j = true) ∧
    (∀ (words : List Nat) (bitCount : Nat),
      (∀ w ∈ words, w < 2 ^ 64) → bitCount ≤ 64 * words.length →
      (findClearedSlot words bitCount = NoSlot ∧
        ∀ i < bitCount, bitmapTestBit words i = true) ∨
      (findClearedSlot words bitCount < bitCount ∧
        bitmapTestBit words (findClearedSlot words bitCount) = false ∧
        ∀ j < findClearedSlot words bitCount, bitmapTestBit words j = true)) := by
  constructor
  · intro v hv hne
    have hkf := Nat.find_spec (exists_testBit_eq_false v)
    have hkmin : ∀ j < Nat.find (exists_testBit_eq_false v), v.testBit j = true := by
      intro j hj
      have := Nat.find_min (exists_testBit_eq_false v) hj
      simpa using this
    have hfci := firstClearedBitIndex_eq_least v hv hne _ hkf hkmin
    rw [hfci]
    exact ⟨hkf, hkmin⟩
  · intro words bitCount hw hbc
    rcases findClearedSlotAux_spec words bitCount 0 hw hbc with
      ⟨e, hall⟩ | ⟨r, e, hr, hf, hmin⟩
    · exact Or.inl ⟨e, hall⟩
    · right
      have heq : findClearedSlot words bitCount = r := by
        unfold findClearedSlot
        rw [e]
        omega
      rw [heq]
      exact ⟨hr, hf, hmin⟩

/-- Witness for C10: at `v = 11` (binary `1011`) the least cleared bit has
index 2, and scanning the one-word bitmap `[11]` over 4 bits finds slot 2. -/
theorem firstClearedBitIndex_findClearedSlot_correct_witness :
    ((11 : Nat) < 2 ^ 64 ∧ (11 : Nat) ≠ 2 ^ 64 - 1 ∧
      Nat.testBit 11 (firstClearedBitIndex 11) = false ∧
      ∀ j < firstClearedBitIndex 11, Nat.testBit 11 j = true) ∧
    ((findClearedSlot [11] 4 = NoSlot ∧ ∀ i < 4, bitmapTestBit [11] i = true) ∨
      (findClearedSlot [11] 4 < 4 ∧
        bitmapTestBit [11] (findClearedSlot [11] 4) = false ∧
        ∀ j < findClearedSlot [11] 4, bitmapTestBit [11] j = true)) :=
  ⟨⟨by decide, by decide,
      (firstClearedBitIndex_findClearedSlot_correct.1 11 (by decide) (by decide)).1,
      (firstClearedBitIndex_findClearedSlot_correct.1 11 (by decide) (by decide)).2⟩,
    firstClearedBitIndex_findClearedSlot_correct.2 [11] 4
      (by intro w hw; simp at hw; omega) (by decide)⟩

/-- `SmallMemoryBoundary` : requests of at most this many bytes go to the
slab allocator. -/
def SmallMemoryBoundary : Nat := 512

/-- `MaxBuddyBlockCount` : number of smallest blocks in one buddy chunk. -/
def MaxBuddyBlockCount : Nat := 4096

/-- `SmallestBuddyBlockSize = SmallMemoryBoundary * 2`. -/
def SmallestBuddyBlockSize : Nat := SmallMemoryBoundary * 2

/-- `BuddyChunkSize = MaxBuddyBlockCount * SmallestBuddyBlockSize` (4 MiB). -/
def BuddyChunkSize : Nat := MaxBuddyBlockCount * SmallestBuddyBlockSize

/-- `MediumMemoryBoundary = MaxBuddyBlockCount * SmallestBuddyBlockSize / 2`:
the largest request the buddy path serves (half of a buddy chunk). -/
def MediumMemoryBoundary : Nat := MaxBuddyBlockCount * SmallestBuddyBlockSize / 2

/-- `BuddyChunkCount` : fixed number of buddy chunks. -/
def BuddyChunkCount : Nat := 1024

/-- Effective block size computed by `IB::memoryAllocate`
(`IBAllocator.cpp` lines 766-777): when `size` is not a multiple of
`alignment`, round up to `(size / alignment + 1) * alignment` when
`size > alignment`, and to `alignment` itself otherwise. -/
def effectiveBlockSize (size alignment : Nat) : Nat :=
  if size ≠ alignment ∧ size % alignment ≠ 0 then
    if alignment < size then (size / alignment + 1) * alignment
    else alignment
  else size

/-- The three allocation strategies of `IB::memoryAllocate`. -/
inductive AllocRoute where
  | slab
  | buddy
  | largeMap
deriving DecidableEq, Repr

/-- Size-class routing of `IB::memoryAllocate` (`IBAllocator.cpp` lines
781-793): slab when the effective block size is at most
`SmallMemoryBoundary`, buddy when at most `MediumMemoryBoundary`, large
OS mapping otherwise. -/
def memoryAllocateRoute (size alignment : Nat) : AllocRoute :=
  let blockSize := effectiveBlockSize size alignment
  if blockSize ≤ SmallMemoryBoundary then AllocRoute.slab
  else if blockSize ≤ MediumMemoryBoundary then AllocRoute.buddy
  else AllocRoute.largeMap

/-- C1: for `memoryAllocate (size, alignment)` with `size > 0` (and a
nonzero alignment), when `size` is not a multiple of `alignment` the
effective block size is the least multiple of `alignment` that is at least
`size` (in particular `alignment` itself when `size < alignment`), it is
`size` itself otherwise, and the request is routed by that effective size:
slab when at most 512 bytes, buddy when greater than 512 and at most
`MediumMemoryBoundary` (half of a buddy chunk, 2 MiB), large OS mapping
otherwise. -/
theorem memoryAllocate_effective_size_and_routing (size alignment : Nat)
    (hs : 0 < size) (ha : 0 < alignment) :
    (¬ alignment ∣ size →
      alignment ∣ effectiveBlockSize size alignment ∧
      size ≤ effectiveBlockSize size alignment ∧
      effectiveBlockSize size alignment < size + alignment ∧
      (size < alignment → effectiveBlockSize size alignment = alignment)) ∧
    (alignment ∣ size → effectiveBlockSize size alignment = size) ∧
    MediumMemoryBoundary = BuddyChunkSize / 2 ∧
    MediumMemoryBoundary = 2 * 1024 * 1024 ∧
    (effectiveBlockSize size alignment ≤ 512 →
      memoryAllocateRoute size alignment = AllocRoute.slab) ∧
    (512 < effectiveBlockSize size alignment →
      effectiveBlockSize size alignment ≤ 2 * 1024 * 1024 →
      memoryAllocateRoute size alignment = AllocRoute.buddy) ∧
    (2 * 1024 * 1024 < effectiveBlockSize size alignment →
      memoryAllocateRoute size alignment = AllocRoute.largeMap) := by
  have hmod : alignment ∣ size ↔ size % alignment = 0 := Nat.dvd_iff_mod_eq_zero
  refine ⟨?_, ?_, by decide, by decide, ?_, ?_, ?_⟩
  · intro hnd
    have hm : size % alignment ≠ 0 := fun h => hnd (hmod.mpr h)
    have hne : size ≠ alignment := by
      intro h
      subst h
      exact hm (Nat.mod_self size)
    unfold effectiveBlockSize
    rw [if_pos ⟨hne, hm⟩]
    by_cases hlt : alignment < size
    · rw [if_pos hlt]
      have hdm := Nat.div_add_mod size alignment
      have hmub : size % alignment < alignment := Nat.mod_lt size ha
      refine ⟨⟨size / alignment + 1, by ring⟩, ?_, ?_, by omega⟩
      · have : (size / alignment + 1) * alignment = size / alignment * alignment + alignment := by
          ring
        rw [this]
        have : alignment * (size / alignment) = size / alignment * alignment := by ring
        omega
      · have : (size / alignment + 1) * alignment = size / alignment * alignment + alignment := by
          ring
        rw [this]
        have : alignment * (size / alignment) = size / alignment * alignment := by ring
        omega
    · rw [if_neg hlt]
      have hlt2 : size < alignment := by
        rcases Nat.lt_trichotomy size alignment with h | h | h
        · exact h
        · exact absurd h hne
        · exact absurd h hlt
      exact ⟨Dvd.intro 1 (by ring), by omega, by omega, fun _ => rfl⟩
  · intro hd
    have hm : size % alignment = 0 := hmod.mp hd
    unfold effectiveBlockSize
    rw [if_neg]
    intro ⟨_, h2⟩
    exact h2 hm
  · intro h
    unfold memoryAllocateRoute
    simp only []
    rw [if_pos (show effectiveBlockSize size alignment ≤ SmallMemoryBoundary from h)]
  · intro h1 h2
    unfold memoryAllocateRoute
    simp only []
    rw [if_neg (show ¬ effectiveBlockSize size alignment ≤ SmallMemoryBoundary by
          unfold SmallMemoryBoundary; omega),
        if_pos (show effectiveBlockSize size alignment ≤ MediumMemoryBoundary by
          have : MediumMemoryBoundary = 2 * 1024 * 1024 := by decide
          omega)]
  · intro h
    unfold memoryAllocateRoute
    simp only []
    rw [if_neg (show ¬ effectiveBlockSize size alignment ≤ SmallMemoryBoundary by
          unfold SmallMemoryBoundary; omega),
        if_neg (show ¬ effectiveBlockSize size alignment ≤ MediumMemoryBoundary by
          have : MediumMemoryBoundary = 2 * 1024 * 1024 := by decide
          omega)]

/-- Witness for C1: at `size = 300`, `alignment = 16` the hypotheses hold
and the effective block size rounds up to 304, routed to the slab path. -/
theorem memoryAllocate_effective_size_and_routing_witness :
    (0 : Nat) < 300 ∧ (0 : Nat) < 16 ∧
    (¬ (16 : Nat) ∣ 300 →
      (16 : Nat) ∣ effectiveBlockSize 300 16 ∧
      300 ≤ effectiveBlockSize 300 16 ∧
      effectiveBlockSize 300 16 < 300 + 16 ∧
      (300 < 16 → effectiveBlockSize 300 16 = 16)) :=
  ⟨by decide, by decide,
    (memoryAllocate_effective_size_and_routing 300 16 (by decide) (by decide)).1⟩

/-! ## Buddy allocator (`src/IBEngine/IBAllocator.cpp` lines 455-757)

Machine-integer details kept from the source: block indices are `uint16_t`
(arithmetic modulo `2 ^ 16`), layers are `uint8_t` (modulo `2 ^ 256` is
irrelevant here, increments are taken modulo 256), and the `1ull << n`
shift in `getSizeFromLayer` masks its shift count modulo 64 as the x86-64
target does. -/

/-- `logBase2` (`IBAllocator.cpp` lines 457-467): smear the highest set bit
downwards, then `popcount - 1`.  For `value = 0` the source produces 255
via `uint8_t` wrap; all call sites pass nonzero values, where this `Nat`
version agrees with the source. -/
def logBase2 (value : Nat) : Nat :=
  let v1 := value ||| (value >>> 1)
  let v2 := v1 ||| (v1 >>> 2)
  let v3 := v2 ||| (v2 >>> 4)
  let v4 := v3 ||| (v3 >>> 8)
  let v5 := v4 ||| (v4 >>> 16)
  let v6 := v5 ||| (v5 >>> 32)
  popcount v6 - 1

/-- `getSizeFromLayer` (`IBAllocator.cpp` lines 492-495):
`1ull << (layer + logBase2 SmallestBuddyBlockSize)`, with the x86-64 shift
count mask. -/
def getSizeFromLayer (layer : Nat) : Nat :=
  1 <<< ((layer + logBase2 SmallestBuddyBlockSize) % 64)

/-- `getLayerFromSize` (`IBAllocator.cpp` lines 497-506): the difference of
the logs (as `uint8_t`, hence the `% 256` wrap), bumped by one when the
layer size is still smaller than the request. -/
def getLayerFromSize (size : Nat) : Nat :=
  let layer := (logBase2 size + 256 - logBase2 SmallestBuddyBlockSize) % 256
  if getSizeFromLayer layer < size then (layer + 1) % 256 else layer

/-- `BuddyBlock` (`IBAllocator.cpp` lines 475-479): `uint16_t Index`,
`uint8_t Layer`. -/
structure BuddyBlock where
  index : Nat
  layer : Nat
deriving DecidableEq, Repr, Inhabited

/-- The per-chunk block bookkeeping of `BuddyChunk` (`IBAllocator.cpp`
lines 481-489): the `FreeBlocks` and `AllocatedBlocks` arrays together
with their counts, as lists. -/
structure BuddyChunkState where
  freeBlocks : List BuddyBlock
  allocatedBlocks : List BuddyBlock
deriving DecidableEq, Repr

/-- Array idiom `a[i] = a[count - 1]; count--` used throughout the buddy
code to remove an element from an unordered array. -/
def swapRemove {α : Type} [Inhabited α] (l : List α) (i : Nat) : List α :=
  (l.set i (l.getD (l.length - 1) default)).dropLast

/-- The free-block scan of `allocateMediumMemory` (`IBAllocator.cpp` lines
569-580): remember the first block of each strictly improving layer among
blocks of layer at least `req`; `bestLayer` starts at `UINT8_MAX`. -/
def findClosestGo (req : Nat) : List BuddyBlock → Nat → Nat → Option Nat → Option Nat
  | [], _, _, best => best
  | b :: bs, pos, bestLayer, best =>
    if req ≤ b.layer ∧ b.layer < bestLayer then
      findClosestGo req bs (pos + 1) b.layer (some pos)
    else
      findClosestGo req bs (pos + 1) bestLayer best

/-- Index of the chosen (smallest sufficient) free block, if any. -/
def findClosestFreeBlock (free : List BuddyBlock) (req : Nat) : Option Nat :=
  findClosestGo req free 0 255 none

/-- The bisection loop of `allocateMediumMemory` (`IBAllocator.cpp` lines
588-605): while the current block's layer exceeds the requested layer,
swap-remove it, append its two children `(layer-1, 2*index)` and
`(layer-1, 2*index+1)` and continue on the first child.  The first
argument is fuel; the starting layer bounds the iteration count, so
calling with fuel `cur.layer` computes the loop exactly. -/
def splitGo : Nat → List BuddyBlock → Nat → BuddyBlock → Nat → List BuddyBlock × Nat × BuddyBlock
  | 0, free, i, cur, _ => (free, i, cur)
  | fuel + 1, free, i, cur, req =>
    if cur.layer ≤ req then (free, i, cur)
    else
      let free1 := swapRemove free i
      let child0 : BuddyBlock := ⟨cur.index * 2 % 65536, cur.layer - 1⟩
      let child1 : BuddyBlock := ⟨(cur.index * 2 + 1) % 65536, cur.layer - 1⟩
      splitGo fuel (free1 ++ [child0, child1]) free1.length child0 req

/-- Buddy allocation within one locked chunk (`IBAllocator.cpp` lines
566-627): pick the smallest free block of sufficient layer, bisect down to
the requested layer, move the final block to the allocated list, and
return the new chunk state together with the byte offset
`getSizeFromLayer layer * index` of the allocation inside the chunk
(`none` when no free block qualifies). -/
def allocateFromChunk (chunk : BuddyChunkState) (blockSize : Nat) :
    Option (BuddyChunkState × Nat) :=
  let req := getLayerFromSize blockSize
  match findClosestFreeBlock chunk.freeBlocks req with
  | none => none
  | some ci =>
    let cur := chunk.freeBlocks.getD ci default
    let res := splitGo cur.layer chunk.freeBlocks ci cur req
    let fin := res.2.2
    let free2 := swapRemove res.1 res.2.1
    some (⟨free2, chunk.allocatedBlocks ++ [fin]⟩, getSizeFromLayer fin.layer * fin.index)

/-- `Index & ~1` on `uint16_t` (`IBAllocator.cpp` lines 712, 716). -/
def buddyEvenIndex (n : Nat) : Nat := n &&& 0xFFFE

/-- Scan for a free buddy: same even pair and same layer
(`IBAllocator.cpp` lines 713-718). -/
def findBuddyIdx (l : List BuddyBlock) (evenIdx layer : Nat) : Option Nat :=
  l.findIdx? (fun b => buddyEvenIndex b.index == evenIdx && b.layer == layer)

/-- The coalescing loop of `freeMediumMemory` (`IBAllocator.cpp` lines
704-748).  The just-freed (or just-merged) block is always the last
element of the free list and is excluded from the scan; on a match, the
matched slot is overwritten with the second-from-last entry, the count
drops by two, and the parent `(layer+1, evenIndex/2)` is appended.  Fuel:
each merge shrinks the list by one, so the list length bounds the
iteration count. -/
def coalesceGo : Nat → List BuddyBlock → BuddyBlock → List BuddyBlock
  | 0, free, _ => free
  | fuel + 1, free, cur =>
    match findBuddyIdx free.dropLast (buddyEvenIndex cur.index) cur.layer with
    | none => free
    | some i =>
      let free1 := (free.set i (free.getD (free.length - 2) default)).take (free.length - 2)
      let parent : BuddyBlock := ⟨buddyEvenIndex cur.index / 2, (cur.layer + 1) % 256⟩
      coalesceGo fuel (free1 ++ [parent]) parent

/-- Buddy free within one locked chunk (`IBAllocator.cpp` lines 662-749):
find the allocated block whose byte offset matches, move it to the free
list, then coalesce buddies.  Returns `none` when no allocated block
matches (the source fires the fatal assertion at line 680). -/
def freeFromChunk (chunk : BuddyChunkState) (offsetFromStart : Nat) :
    Option BuddyChunkState :=
  match chunk.allocatedBlocks.findIdx?
      (fun b => getSizeFromLayer b.layer * b.index == offsetFromStart) with
  | none => none
  | some bi =>
    let cur := chunk.allocatedBlocks.getD bi default
    let alloc1 := swapRemove chunk.allocatedBlocks bi
    let free1 := chunk.freeBlocks ++ [cur]
    some ⟨coalesceGo free1.length free1 cur, alloc1⟩

/-- A freshly initialised buddy chunk (`IBAllocator.cpp` lines 554-564):
one free block at index 0 on the top layer. -/
def freshBuddyChunk : BuddyChunkState :=
  ⟨[⟨0, getLayerFromSize BuddyChunkSize⟩], []⟩

/-- The chunk walk of `allocateMediumMemory` (`IBAllocator.cpp` lines
527-636) without the cross-thread lock retries: visit each chunk in order,
lazily initialising unreserved chunks (`none`) with a full top-layer free
block, and allocate from the first chunk that has a fitting free block.
Falls through to `none` — the source's `return nullptr` at line 636 — when
no chunk can serve the request. -/
def allocateMediumGo :
    List (Option BuddyChunkState) → Nat → Option (List (Option BuddyChunkState) × Nat × Nat)
  | [], _ => none
  | c :: rest, blockSize =>
    let chunk := c.getD freshBuddyChunk
    match allocateFromChunk chunk blockSize with
    | some (c2, off) => some (some c2 :: rest, 0, off)
    | none =>
      match allocateMediumGo rest blockSize with
      | some (rest2, idx, off) => some (some chunk :: rest2, idx + 1, off)
      | none => none

/-- Free list after carving the first 1 KiB block out of a fresh chunk:
the sibling of each split level, plus the layer-0 sibling. -/
def chunkAfterFirstAlloc : BuddyChunkState :=
  ⟨[⟨1, 11⟩, ⟨1, 10⟩, ⟨1, 9⟩, ⟨1, 8⟩, ⟨1, 7⟩, ⟨1, 6⟩, ⟨1, 5⟩, ⟨1, 4⟩, ⟨1, 3⟩,
      ⟨1, 2⟩, ⟨1, 1⟩, ⟨1, 0⟩],
    [⟨0, 0⟩]⟩

/-- Chunk state after the second 1 KiB allocation took block `(0, 1)`. -/
def chunkAfterSecondAlloc : BuddyChunkState :=
  ⟨[⟨1, 11⟩, ⟨1, 10⟩, ⟨1, 9⟩, ⟨1, 8⟩, ⟨1, 7⟩, ⟨1, 6⟩, ⟨1, 5⟩, ⟨1, 4⟩, ⟨1, 3⟩,
      ⟨1, 2⟩, ⟨1, 1⟩],
    [⟨0, 0⟩, ⟨1, 0⟩]⟩

/-- Chunk state after freeing the first block again: its buddy `(0, 1)` is
still allocated, so nothing coalesces. -/
def chunkAfterFirstFree : BuddyChunkState :=
  ⟨[⟨1, 11⟩, ⟨1, 10⟩, ⟨1, 9⟩, ⟨1, 8⟩, ⟨1, 7⟩, ⟨1, 6⟩, ⟨1, 5⟩, ⟨1, 4⟩, ⟨1, 3⟩,
      ⟨1, 2⟩, ⟨1, 1⟩, ⟨0, 0⟩],
    [⟨1, 0⟩]⟩

/-- C5: starting from a fresh buddy chunk, allocating a 1 KiB block (at
offset 0) and a second one (at offset 1024), then freeing the first,
leaves the second allocated block — and hence its address — unchanged;
freeing the second coalesces even-index buddy pairs into parents all the
way back up, leaving the free list as exactly one block at the top layer
(12, the layer of a whole chunk) with index 0. -/
theorem buddy_coalesce_scenario :
    allocateFromChunk freshBuddyChunk 1024 = some (chunkAfterFirstAlloc, 0) ∧
    allocateFromChunk chunkAfterFirstAlloc 1024 = some (chunkAfterSecondAlloc, 1024) ∧
    freeFromChunk chunkAfterSecondAlloc 0 = some chunkAfterFirstFree ∧
    chunkAfterFirstFree.allocatedBlocks = [⟨1, 0⟩] ∧
    getSizeFromLayer 0 * 1 = 1024 ∧
    freeFromChunk chunkAfterFirstFree 1024 =
      some ⟨[⟨0, getLayerFromSize BuddyChunkSize⟩], []⟩ ∧
    getLayerFromSize BuddyChunkSize = 12 := by
  refine ⟨by decide, by decide, by decide, by decide, by decide, by decide, by decide⟩

/-! ## List helpers for the buddy proofs -/

theorem cons_eraseIdx_perm {α : Type} [Inhabited α] (l : List α) :
    ∀ p, p < l.length → l.Perm (l.getD p default :: l.eraseIdx p) := by
  induction l with
  | nil => intro p h; simp at h
  | cons a t ih =>
    intro p h
    cases p with
    | zero => simp
    | succ q =>
      have hq : q < t.length := by simpa using h
      have h1 : (a :: t).Perm (a :: t.getD q default :: t.eraseIdx q) :=
        (ih q hq).cons a
      have h2 : (a :: t.getD q default :: t.eraseIdx q).Perm
          (t.getD q default :: a :: t.eraseIdx q) :=
        List.Perm.swap (t.getD q default) a (t.eraseIdx q)
      exact h1.trans h2

theorem eraseIdx_append_cons (xs : List α) (y : α) (ys : List α) :
    (xs ++ y :: ys).eraseIdx xs.length = xs ++ ys := by
  induction xs with
  | nil => rfl
  | cons x xs ih => simpa using ih

theorem getD_append_cons {α : Type} [Inhabited α] (xs : List α) (y : α) (ys : List α) :
    (xs ++ y :: ys).getD xs.length default = y := by
  induction xs with
  | nil => rfl
  | cons x xs ih => simpa using ih

theorem swapRemove_perm {α : Type} [Inhabited α] (l : List α) (i : Nat)
    (h : i < l.length) : (swapRemove l i).Perm (l.eraseIdx i) := by
  unfold swapRemove
  rw [List.set_eq_take_cons_drop _ h, List.eraseIdx_eq_take_drop_succ]
  by_cases hi : i = l.length - 1
  · have hdrop : l.drop (i + 1) = [] := List.drop_eq_nil_of_le (by omega)
    rw [hdrop, List.dropLast_concat]
    simp
  · have hdr : l.drop (i + 1) ≠ [] := by
      intro e
      have := List.drop_eq_nil_iff.mp e
      omega
    rw [List.dropLast_append_cons, List.dropLast_cons_of_ne_nil hdr]
    apply List.Perm.append_left
    have hlastd : (l.drop (i + 1)).getLast hdr = l.getD (l.length - 1) default := by
      rw [List.getLast_eq_getElem, List.getElem_drop,
        List.getD_eq_getElem?_getD,
        List.getElem?_eq_getElem (show l.length - 1 < l.length by omega)]
      have hlen : i + 1 + ((l.drop (i + 1)).length - 1) = l.length - 1 := by
        rw [List.length_drop]
        omega
      simp only [Option.getD_some]
      congr 1
    have hstep : ((l.drop (i + 1)).getLast hdr :: (l.drop (i + 1)).dropLast).Perm
        (l.drop (i + 1)) := by
      have h1 := (List.perm_append_singleton ((l.drop (i + 1)).getLast hdr)
        ((l.drop (i + 1)).dropLast)).symm
      rw [List.dropLast_concat_getLast hdr] at h1
      exact h1
    rw [← hlastd]
    exact hstep

/-! ## Correctness of the buddy allocation path (C4) -/

theorem findClosestGo_spec (req : Nat) (l : List BuddyBlock) :
    ∀ (pos bestLayer : Nat) (best : Option Nat),
    ((¬ ∃ b ∈ l, req ≤ b.layer ∧ b.layer < bestLayer) →
      findClosestGo req l pos bestLayer best = best) ∧
    ((∃ b ∈ l, req ≤ b.layer ∧ b.layer < bestLayer) →
      ∃ k, k < l.length ∧
        findClosestGo req l pos bestLayer best = some (pos + k) ∧
        req ≤ (l.getD k default).layer ∧ (l.getD k default).layer < bestLayer ∧
        ∀ b ∈ l, req ≤ b.layer → (l.getD k default).layer ≤ b.layer) := by
  induction l with
  | nil =>
    intro pos bL best
    refine ⟨fun _ => rfl, ?_⟩
    rintro ⟨b, hb, _⟩
    simp at hb
  | cons a bs ih =>
    intro pos bL best
    by_cases hc : req ≤ a.layer ∧ a.layer < bL
    · have hunfold : findClosestGo req (a :: bs) pos bL best =
          findClosestGo req bs (pos + 1) a.layer (some pos) := by
        simp only [findClosestGo]
        rw [if_pos hc]
      refine ⟨fun hno => absurd ⟨a, List.mem_cons_self a bs, hc⟩ hno, fun _ => ?_⟩
      by_cases hbs : ∃ b ∈ bs, req ≤ b.layer ∧ b.layer < a.layer
      · obtain ⟨k, hk, he, h1, h2, h3⟩ := (ih (pos + 1) a.layer (some pos)).2 hbs
        refine ⟨k + 1, by simpa using Nat.succ_lt_succ hk, ?_, ?_, ?_, ?_⟩
        · rw [hunfold, he]
          congr 1
          omega
        · simpa [List.getD_cons_succ] using h1
        · simp only [List.getD_cons_succ]
          omega
        · intro b hb hreq
          simp only [List.getD_cons_succ]
          rcases List.mem_cons.mp hb with rfl | hb2
          · omega
          · exact h3 b hb2 hreq
      · have he := (ih (pos + 1) a.layer (some pos)).1 hbs
        refine ⟨0, by simp, ?_, ?_, ?_, ?_⟩
        · rw [hunfold, he]
          simp
        · simpa [List.getD_cons_zero] using hc.1
        · simpa [List.getD_cons_zero] using hc.2
        · intro b hb hreq
          simp only [List.getD_cons_zero]
          rcases List.mem_cons.mp hb with rfl | hb2
          · omega
          · have hn : ¬ (req ≤ b.layer ∧ b.layer < a.layer) := fun hq => hbs ⟨b, hb2, hq⟩
            omega
    · have hunfold : findClosestGo req (a :: bs) pos bL best =
          findClosestGo req bs (pos + 1) bL best := by
        simp only [findClosestGo]
        rw [if_neg hc]
      constructor
      · intro hno
        rw [hunfold]
        apply (ih (pos + 1) bL best).1
        rintro ⟨b, hb, hq⟩
        exact hno ⟨b, List.mem_cons_of_mem a hb, hq⟩
      · rintro ⟨b, hb, hq⟩
        rcases List.mem_cons.mp hb with rfl | hb2
        · exact absurd hq hc
        · obtain ⟨k, hk, he, h1, h2, h3⟩ := (ih (pos + 1) bL best).2 ⟨b, hb2, hq⟩
          refine ⟨k + 1, by simpa using Nat.succ_lt_succ hk, ?_,
            by simpa [List.getD_cons_succ] using h1,
            by simpa [List.getD_cons_succ] using h2, ?_⟩
          · rw [hunfold, he]
            congr 1
            omega
          · intro b2 hb2' hreq
            simp only [List.getD_cons_succ]
            rcases List.mem_cons.mp hb2' with rfl | hb3
            · have hn : ¬ (req ≤ b2.layer ∧ b2.layer < bL) := hc
              omega
            · exact h3 b2 hb3 hreq

/-- The sibling blocks pushed to the free list by the bisection loop when a
block `cur` is split down to layer `req`: one at each intermediate layer,
always the odd-index child. -/
def splitSiblings (cur : BuddyBlock) (req : Nat) : List BuddyBlock :=
  (List.range (cur.layer - req)).map fun j =>
    ⟨cur.index * 2 ^ (cur.layer - req - j) + 1, req + j⟩

theorem splitSiblings_nil (cur : BuddyBlock) (req : Nat) (h : cur.layer ≤ req) :
    splitSiblings cur req = [] := by
  unfold splitSiblings
  rw [show cur.layer - req = 0 by omega]
  rfl

theorem splitSiblings_step (cur : BuddyBlock) (req : Nat) (h : req < cur.layer) :
    splitSiblings cur req =
      splitSiblings ⟨cur.index * 2, cur.layer - 1⟩ req ++
        [⟨cur.index * 2 + 1, cur.layer - 1⟩] := by
  unfold splitSiblings
  have hn : cur.layer - req = (cur.layer - 1 - req) + 1 := by omega
  rw [hn, List.range_succ, List.map_append]
  congr 1
  · apply List.map_congr_left
    intro j hj
    have hj2 : j < cur.layer - 1 - req := List.mem_range.mp hj
    simp only [BuddyBlock.mk.injEq]
    refine ⟨?_, trivial⟩
    have hexp : cur.layer - 1 - req + 1 - j = (cur.layer - 1 - req - j) + 1 := by omega
    rw [hexp, Nat.pow_succ]
    ring
  · simp only [List.map_cons, List.map_nil, List.cons.injEq, and_true]
    have he1 : cur.layer - 1 - req + 1 - (cur.layer - 1 - req) = 1 := by omega
    have he2 : req + (cur.layer - 1 - req) = cur.layer - 1 := by omega
    rw [he1, he2, pow_one]

theorem splitGo_spec :
    ∀ (fuel : Nat) (free : List BuddyBlock) (i : Nat) (cur : BuddyBlock) (req : Nat),
    cur.layer ≤ fuel → i < free.length → free.getD i default = cur →
    req ≤ cur.layer → (cur.index + 1) * 2 ^ cur.layer ≤ 2 ^ 16 →
    (splitGo fuel free i cur req).2.2 = ⟨cur.index * 2 ^ (cur.layer - req), req⟩ ∧
    (splitGo fuel free i cur req).2.1 < (splitGo fuel free i cur req).1.length ∧
    (splitGo fuel free i cur req).1.getD (splitGo fuel free i cur req).2.1 default =
      (splitGo fuel free i cur req).2.2 ∧
    ((splitGo fuel free i cur req).1).Perm
      (free.eraseIdx i ++ splitSiblings cur req ++
        [⟨cur.index * 2 ^ (cur.layer - req), req⟩]) := by
  intro fuel
  induction fuel with
  | zero =>
    intro free i cur req hfuel hi hget hreq _
    have hl0 : cur.layer = 0 := by omega
    have hr0 : req = 0 := by omega
    have hfin : cur = BuddyBlock.mk (cur.index * 2 ^ (cur.layer - req)) req := by
      obtain ⟨ci, cl⟩ := cur
      simp only at hl0
      subst hr0
      subst hl0
      simp
    refine ⟨hfin, hi, hget, ?_⟩
    rw [splitSiblings_nil cur req (by omega), List.append_nil, ← hfin]
    have h1 := cons_eraseIdx_perm free i hi
    rw [hget] at h1
    exact h1.trans (List.perm_append_singleton cur (free.eraseIdx i)).symm
  | succ fuel ih =>
    intro free i cur req hfuel hi hget hreq hinv
    by_cases hle : cur.layer ≤ req
    · have hlr : cur.layer = req := by omega
      have hunf : splitGo (fuel + 1) free i cur req = (free, i, cur) := by
        simp only [splitGo]
        rw [if_pos hle]
      have hfin : cur = BuddyBlock.mk (cur.index * 2 ^ (cur.layer - req)) req := by
        obtain ⟨ci, cl⟩ := cur
        simp only at hlr
        subst hlr
        simp
      rw [hunf]
      refine ⟨hfin, hi, hget, ?_⟩
      rw [splitSiblings_nil cur req hle, List.append_nil, ← hfin]
      have h1 := cons_eraseIdx_perm free i hi
      rw [hget] at h1
      exact h1.trans (List.perm_append_singleton cur (free.eraseIdx i)).symm
    · have hlt : req < cur.layer := by omega
      have hlpos : 1 ≤ cur.layer := by omega
      have hpow : 2 ^ cur.layer = 2 * 2 ^ (cur.layer - 1) := by
        rw [← Nat.pow_succ']
        congr 1
        omega
      have hidx1 : cur.index * 2 + 1 < 65536 := by
        have h2 : 2 ≤ 2 ^ cur.layer := by
          calc 2 = 2 ^ 1 := rfl
            _ ≤ 2 ^ cur.layer := Nat.pow_le_pow_right (by omega) hlpos
        have h3 : (cur.index + 1) * 2 ≤ (cur.index + 1) * 2 ^ cur.layer :=
          Nat.mul_le_mul_left _ h2
        have h4 : (2 : Nat) ^ 16 = 65536 := by norm_num
        omega
      have hidx0 : cur.index * 2 < 65536 := by omega
      have hm0 : cur.index * 2 % 65536 = cur.index * 2 := Nat.mod_eq_of_lt hidx0
      have hm1 : (cur.index * 2 + 1) % 65536 = cur.index * 2 + 1 := Nat.mod_eq_of_lt hidx1
      have hunf : splitGo (fuel + 1) free i cur req =
          splitGo fuel
            (swapRemove free i ++
              [⟨cur.index * 2, cur.layer - 1⟩, ⟨cur.index * 2 + 1, cur.layer - 1⟩])
            (swapRemove free i).length ⟨cur.index * 2, cur.layer - 1⟩ req := by
        simp only [splitGo]
        rw [if_neg hle, hm0, hm1]
      have hlen2 : (swapRemove free i).length <
          (swapRemove free i ++
            [BuddyBlock.mk (cur.index * 2) (cur.layer - 1),
              BuddyBlock.mk (cur.index * 2 + 1) (cur.layer - 1)]).length := by
        rw [List.length_append]
        simp
      have hgetc : (swapRemove free i ++
          [BuddyBlock.mk (cur.index * 2) (cur.layer - 1),
            BuddyBlock.mk (cur.index * 2 + 1) (cur.layer - 1)]).getD
            (swapRemove free i).length default = BuddyBlock.mk (cur.index * 2) (cur.layer - 1) :=
        getD_append_cons _ _ _
      have hinv2 : (cur.index * 2 + 1 + 1) * 2 ^ (cur.layer - 1) ≤ 2 ^ 16 := by
        have heq : (cur.index * 2 + 1 + 1) * 2 ^ (cur.layer - 1) =
            (cur.index + 1) * (2 * 2 ^ (cur.layer - 1)) := by ring
        rw [heq, ← hpow]
        exact hinv
      have hspec := ih _ (swapRemove free i).length (BuddyBlock.mk (cur.index * 2) (cur.layer - 1)) req
        (show cur.layer - 1 ≤ fuel by omega) hlen2 hgetc
        (show req ≤ cur.layer - 1 by omega)
        (by simpa using le_trans (Nat.mul_le_mul_right _ (by omega : cur.index * 2 + 1 ≤ cur.index * 2 + 1 + 1)) hinv2)
      obtain ⟨hfin, hlen3, hget3, hperm⟩ := hspec
      have hidxeq : cur.index * 2 * 2 ^ (cur.layer - 1 - req) =
          cur.index * 2 ^ (cur.layer - req) := by
        have he : cur.layer - req = (cur.layer - 1 - req) + 1 := by omega
        rw [he, Nat.pow_succ]
        ring
      rw [hunf]
      refine ⟨?_, hlen3, ?_, ?_⟩
      · rw [hfin]
        simp only [BuddyBlock.mk.injEq]
        exact ⟨hidxeq, trivial⟩
      · exact hget3
      · have he : (swapRemove free i ++
            [BuddyBlock.mk (cur.index * 2) (cur.layer - 1),
              BuddyBlock.mk (cur.index * 2 + 1) (cur.layer - 1)]).eraseIdx
              (swapRemove free i).length =
            swapRemove free i ++ [BuddyBlock.mk (cur.index * 2 + 1) (cur.layer - 1)] :=
          eraseIdx_append_cons _ _ _
        simp only at hperm
        rw [he, hidxeq] at hperm
        have hfinal : ((swapRemove free i ++
            [BuddyBlock.mk (cur.index * 2 + 1) (cur.layer - 1)]) ++
            splitSiblings (BuddyBlock.mk (cur.index * 2) (cur.layer - 1)) req ++
            [BuddyBlock.mk (cur.index * 2 ^ (cur.layer - req)) req]).Perm
            (free.eraseIdx i ++ splitSiblings cur req ++
              [BuddyBlock.mk (cur.index * 2 ^ (cur.layer - req)) req]) := by
          apply List.Perm.append_right
          rw [splitSiblings_step cur req hlt]
          have hp1 : (swapRemove free i ++
              [BuddyBlock.mk (cur.index * 2 + 1) (cur.layer - 1)]).Perm
              (free.eraseIdx i ++ [BuddyBlock.mk (cur.index * 2 + 1) (cur.layer - 1)]) :=
            List.Perm.append_right _ (swapRemove_perm free i hi)
          have hp2 := List.Perm.append_right
            (splitSiblings (BuddyBlock.mk (cur.index * 2) (cur.layer - 1)) req) hp1
          apply hp2.trans
          rw [List.append_assoc]
          apply List.Perm.append_left
          exact List.perm_append_comm
        exact hperm.trans hfinal

theorem logBase2_smallest : logBase2 SmallestBuddyBlockSize = 10 := by decide

theorem getSizeFromLayer_eq (l : Nat) (h : l ≤ 53) :
    getSizeFromLayer l = SmallestBuddyBlockSize * 2 ^ l := by
  unfold getSizeFromLayer
  rw [logBase2_smallest, Nat.mod_eq_of_lt (by omega), Nat.shiftLeft_eq, one_mul,
    Nat.pow_add]
  have h1024 : (2 : Nat) ^ 10 = SmallestBuddyBlockSize := by decide
  rw [← h1024]
  ring

/-- C4: for every buddy allocation that finds a free block, the chosen
block is a smallest free block whose layer is at least the requested
layer; the bisection replaces it in the free list by the generated
children, continuing on one child, so the free list afterwards consists of
the remaining blocks plus the odd-index sibling of every split level; the
final block has exactly the requested layer and index
`chosen.index * 2 ^ (chosen.layer - requested)`, it is appended to the
allocated list, and the returned address is the chunk base plus
`(SmallestBuddyBlockSize * 2 ^ layer) * index`.  The two side conditions
say the chosen block lies inside the chunk (its span fits the `uint16`
index space) and its layer is below the 64-bit shift bound; every real
chunk state satisfies both. -/
theorem buddy_allocation_splits_to_requested_layer
    (chunk : BuddyChunkState) (blockSize : Nat) (ci : Nat)
    (hfind : findClosestFreeBlock chunk.freeBlocks (getLayerFromSize blockSize) = some ci)
    (hinv : ((chunk.freeBlocks.getD ci default).index + 1) *
      2 ^ (chunk.freeBlocks.getD ci default).layer ≤ 2 ^ 16)
    (hlay : (chunk.freeBlocks.getD ci default).layer ≤ 53) :
    ∃ chunk2 offset,
      allocateFromChunk chunk blockSize = some (chunk2, offset) ∧
      ci < chunk.freeBlocks.length ∧
      getLayerFromSize blockSize ≤ (chunk.freeBlocks.getD ci default).layer ∧
      (∀ b ∈ chunk.freeBlocks, getLayerFromSize blockSize ≤ b.layer →
        (chunk.freeBlocks.getD ci default).layer ≤ b.layer) ∧
      chunk2.allocatedBlocks = chunk.allocatedBlocks ++
        [BuddyBlock.mk
          ((chunk.freeBlocks.getD ci default).index *
            2 ^ ((chunk.freeBlocks.getD ci default).layer - getLayerFromSize blockSize))
          (getLayerFromSize blockSize)] ∧
      (chunk2.freeBlocks).Perm (chunk.freeBlocks.eraseIdx ci ++
        splitSiblings (chunk.freeBlocks.getD ci default) (getLayerFromSize blockSize)) ∧
      offset = getSizeFromLayer (getLayerFromSize blockSize) *
        ((chunk.freeBlocks.getD ci default).index *
          2 ^ ((chunk.freeBlocks.getD ci default).layer - getLayerFromSize blockSize)) ∧
      getSizeFromLayer (getLayerFromSize blockSize) =
        SmallestBuddyBlockSize * 2 ^ getLayerFromSize blockSize := by
  have hspec := findClosestGo_spec (getLayerFromSize blockSize) chunk.freeBlocks 0 255 none
  by_cases hex : ∃ b ∈ chunk.freeBlocks,
      getLayerFromSize blockSize ≤ b.layer ∧ b.layer < 255
  · obtain ⟨k, hk, he, h1, h2, h3⟩ := hspec.2 hex
    rw [Nat.zero_add] at he
    unfold findClosestFreeBlock at hfind
    rw [he] at hfind
    have hcieq : ci = k := (Option.some.inj hfind).symm
    subst hcieq
    have hgd : chunk.freeBlocks.getD ci default = chunk.freeBlocks.getD ci default := rfl
    obtain ⟨hfin, hlen3, hget3, hperm⟩ := splitGo_spec
      (chunk.freeBlocks.getD ci default).layer chunk.freeBlocks ci
      (chunk.freeBlocks.getD ci default) (getLayerFromSize blockSize)
      (Nat.le_refl _) hk hgd h1 hinv
    have halloc : allocateFromChunk chunk blockSize =
        some (⟨swapRemove
            (splitGo (chunk.freeBlocks.getD ci default).layer chunk.freeBlocks ci
              (chunk.freeBlocks.getD ci default) (getLayerFromSize blockSize)).1
            (splitGo (chunk.freeBlocks.getD ci default).layer chunk.freeBlocks ci
              (chunk.freeBlocks.getD ci default) (getLayerFromSize blockSize)).2.1,
          chunk.allocatedBlocks ++
            [(splitGo (chunk.freeBlocks.getD ci default).layer chunk.freeBlocks ci
              (chunk.freeBlocks.getD ci default) (getLayerFromSize blockSize)).2.2]⟩,
          getSizeFromLayer
            (splitGo (chunk.freeBlocks.getD ci default).layer chunk.freeBlocks ci
              (chunk.freeBlocks.getD ci default) (getLayerFromSize blockSize)).2.2.layer *
          (splitGo (chunk.freeBlocks.getD ci default).layer chunk.freeBlocks ci
            (chunk.freeBlocks.getD ci default) (getLayerFromSize blockSize)).2.2.index) := by
      simp only [allocateFromChunk, findClosestFreeBlock, he]
    refine ⟨_, _, halloc, hk, h1, h3, ?_, ?_, ?_, getSizeFromLayer_eq _ (by omega)⟩
    · simp only [hfin]
    · have hsw := swapRemove_perm _ _ hlen3
      have hcons := cons_eraseIdx_perm _ _ hlen3
      rw [hget3] at hcons
      have hsingle := List.perm_append_singleton
        (BuddyBlock.mk
          ((chunk.freeBlocks.getD ci default).index *
            2 ^ ((chunk.freeBlocks.getD ci default).layer - getLayerFromSize blockSize))
          (getLayerFromSize blockSize))
        (chunk.freeBlocks.eraseIdx ci ++
          splitSiblings (chunk.freeBlocks.getD ci default) (getLayerFromSize blockSize))
      have hp2 := hperm.trans hsingle
      rw [hfin] at hcons
      have hp3 := hcons.symm.trans hp2
      have hp4 := hp3.cons_inv
      exact hsw.trans hp4
    · simp only [hfin]
  · exfalso
    have hnone := hspec.1 hex
    unfold findClosestFreeBlock at hfind
    rw [hnone] at hfind
    exact Option.noConfusion hfind

/-- Sample chunk for the C4 witness: one free block of layer 2 at index 0. -/
def sampleChunk : BuddyChunkState := ⟨[⟨0, 2⟩], []⟩

/-- Witness for C4: allocating 1024 bytes (requested layer 0) from a chunk
whose free list is a single layer-2 block satisfies all hypotheses. -/
theorem buddy_allocation_splits_to_requested_layer_witness :
    findClosestFreeBlock sampleChunk.freeBlocks (getLayerFromSize 1024) = some 0 ∧
    ((sampleChunk.freeBlocks.getD 0 default).index + 1) *
      2 ^ (sampleChunk.freeBlocks.getD 0 default).layer ≤ 2 ^ 16 ∧
    (sampleChunk.freeBlocks.getD 0 default).layer ≤ 53 ∧
    (∃ chunk2 offset,
      allocateFromChunk sampleChunk 1024 = some (chunk2, offset) ∧
      0 < sampleChunk.freeBlocks.length ∧
      getLayerFromSize 1024 ≤ (sampleChunk.freeBlocks.getD 0 default).layer ∧
      (∀ b ∈ sampleChunk.freeBlocks, getLayerFromSize 1024 ≤ b.layer →
        (sampleChunk.freeBlocks.getD 0 default).layer ≤ b.layer) ∧
      chunk2.allocatedBlocks = sampleChunk.allocatedBlocks ++
        [BuddyBlock.mk
          ((sampleChunk.freeBlocks.getD 0 default).index *
            2 ^ ((sampleChunk.freeBlocks.getD 0 default).layer - getLayerFromSize 1024))
          (getLayerFromSize 1024)] ∧
      (chunk2.freeBlocks).Perm (sampleChunk.freeBlocks.eraseIdx 0 ++
        splitSiblings (sampleChunk.freeBlocks.getD 0 default) (getLayerFromSize 1024)) ∧
      offset = getSizeFromLayer (getLayerFromSize 1024) *
        ((sampleChunk.freeBlocks.getD 0 default).index *
          2 ^ ((sampleChunk.freeBlocks.getD 0 default).layer - getLayerFromSize 1024)) ∧
      getSizeFromLayer (getLayerFromSize 1024) =
        SmallestBuddyBlockSize * 2 ^ getLayerFromSize 1024) :=
  ⟨by decide, by decide, by decide,
    buddy_allocation_splits_to_requested_layer sampleChunk 1024 0
      (by decide) (by decide) (by decide)⟩

/-! ## Exhaustion behaviour of the two pooled paths (C8) -/

/-- Outcome of the slab path's page scan. -/
inductive SmallAllocScan where
  | fatal
  | pageFound (pageIndex : Nat)
deriving DecidableEq, Repr

/-- The page-scan step of `allocateSmallMemory` in the uncontended case
(`IBAllocator.cpp` lines 347-353, with `slotOffset = 0`): scan the header
bitmap; `IB_ASSERT(pageIndex != NoSlot || slotOffset != 0)` fires — a
fatal assertion — when the scan finds no cleared bit. -/
def allocateSmallMemoryScan (header : List Nat) (pageCount : Nat) : SmallAllocScan :=
  if findClearedSlot header pageCount = NoSlot then SmallAllocScan.fatal
  else SmallAllocScan.pageFound (findClearedSlot header pageCount)

/-- A buddy-chunk population in which every chunk is reserved and fully
allocated (one top-layer block allocated, free list empty). -/
def exhaustedChunks : List (Option BuddyChunkState) :=
  List.replicate BuddyChunkCount (some ⟨[], [⟨0, 12⟩]⟩)

theorem allocateMediumGo_none_of_no_fit (chunks : List (Option BuddyChunkState))
    (blockSize : Nat)
    (h : ∀ c ∈ chunks, findClosestFreeBlock (c.getD freshBuddyChunk).freeBlocks
      (getLayerFromSize blockSize) = none) :
    allocateMediumGo chunks blockSize = none := by
  induction chunks with
  | nil => rfl
  | cons c rest ih =>
    have hc : findClosestFreeBlock (c.getD freshBuddyChunk).freeBlocks
        (getLayerFromSize blockSize) = none :=
      h c (List.mem_cons_self c rest)
    have hrest := ih fun x hx => h x (List.mem_cons_of_mem c hx)
    have hchunk : allocateFromChunk (c.getD freshBuddyChunk) blockSize = none := by
      simp only [allocateFromChunk, hc]
    simp only [allocateMediumGo, hchunk, hrest]

theorem exhaustedChunks_no_fit :
    ∀ c ∈ exhaustedChunks, findClosestFreeBlock (c.getD freshBuddyChunk).freeBlocks
      (getLayerFromSize 1024) = none := by
  intro c hc
  rw [List.eq_of_mem_replicate hc]
  decide

/-- Counterexample to C8 as stated: when no buddy chunk has a free block
of sufficient layer, `allocateMediumMemory` falls off the end of its chunk
walk and returns a null pointer (`IBAllocator.cpp` line 636) — there is no
fatal assertion on this path, and `memoryAllocate` passes the null pointer
through to its caller. -/
theorem medium_exhaustion_returns_null :
    allocateMediumGo exhaustedChunks 1024 = none :=
  allocateMediumGo_none_of_no_fit exhaustedChunks 1024 exhaustedChunks_no_fit

/-- C8 as amended: slab-side exhaustion (no cleared bit in the size
class's header bitmap) is a fatal assertion, but buddy-side exhaustion
(no chunk whose free list has a block of sufficient layer) makes
`allocateMediumMemory` return a null pointer with no assertion. -/
theorem allocator_exhaustion_behaviour :
    (∀ (header : List Nat) (pageCount : Nat),
      findClearedSlot header pageCount = NoSlot →
      allocateSmallMemoryScan header pageCount = SmallAllocScan.fatal) ∧
    (∀ (chunks : List (Option BuddyChunkState)) (blockSize : Nat),
      (∀ c ∈ chunks, findClosestFreeBlock (c.getD freshBuddyChunk).freeBlocks
        (getLayerFromSize blockSize) = none) →
      allocateMediumGo chunks blockSize = none) := by
  constructor
  · intro header pageCount h
    unfold allocateSmallMemoryScan
    rw [if_pos h]
  · exact allocateMediumGo_none_of_no_fit

/-- Witness for C8 (amended): a one-page header of all ones exhausts the
slab scan fatally, and the fully-allocated chunk population makes the
buddy walk return null. -/
theorem allocator_exhaustion_behaviour_witness :
    (findClearedSlot [2 ^ 64 - 1] 64 = NoSlot ∧
      allocateSmallMemoryScan [2 ^ 64 - 1] 64 = SmallAllocScan.fatal) ∧
    ((∀ c ∈ exhaustedChunks, findClosestFreeBlock (c.getD freshBuddyChunk).freeBlocks
        (getLayerFromSize 1024) = none) ∧
      allocateMediumGo exhaustedChunks 1024 = none) :=
  ⟨⟨by decide, allocator_exhaustion_behaviour.1 [2 ^ 64 - 1] 64 (by decide)⟩,
    ⟨exhaustedChunks_no_fit,
      allocator_exhaustion_behaviour.2 exhaustedChunks 1024 exhaustedChunks_no_fit⟩⟩

/-! ## Streamer registration (`src/IBEngine/IBAsset.cpp` lines 167-178, C9) -/

/-- `StreamerData` (`IBAsset.cpp` lines 44-48): a streamer pointer
(modelled as an identifier) and a `FourCC` type tag whose value 0 marks a
free slot. -/
structure StreamerData where
  streamer : Nat
  fourcc : Nat
deriving DecidableEq, Repr, Inhabited

/-- `MaxStreamerCount` (`IBAsset.cpp` line 50). -/
def MaxStreamerCount : Nat := 100

/-- `addStreamer` (`IBAsset.cpp` lines 167-178): walk the table and store
into the first slot whose FourCC is zero; the loop simply ends — with no
assertion and no store — when no slot is free. -/
def addStreamer : List StreamerData → Nat → Nat → List StreamerData
  | [], _, _ => []
  | s :: rest, t, st =>
    if s.fourcc = 0 then ⟨st, t⟩ :: rest else s :: addStreamer rest t st

/-- A full streamer table: every slot has a nonzero FourCC. -/
def fullStreamerTable : List StreamerData :=
  List.replicate MaxStreamerCount ⟨5, 1⟩

/-- Counterexample to C9 as stated: calling `addStreamer` on a full
100-entry table leaves the table unchanged — a silent no-op, not a fatal
invariant violation (the source has no assertion on this path). -/
theorem addStreamer_full_table_is_noop :
    addStreamer fullStreamerTable 2 7 = fullStreamerTable := by decide

/-- C9 as amended: `addStreamer` stores the streamer into the first table
slot whose FourCC is zero, and when every slot is occupied the call
silently leaves the table unchanged. -/
theorem addStreamer_first_free_slot :
    (∀ (table : List StreamerData) (t st : Nat) (i : Nat),
      i < table.length → (table.getD i default).fourcc = 0 →
      (∀ j < i, (table.getD j default).fourcc ≠ 0) →
      addStreamer table t st = table.set i ⟨st, t⟩) ∧
    (∀ (table : List StreamerData) (t st : Nat),
      (∀ e ∈ table, e.fourcc ≠ 0) → addStreamer table t st = table) := by
  constructor
  · intro table t st
    induction table with
    | nil => intro i hi; simp at hi
    | cons s rest ih =>
      intro i hi hzero hfirst
      cases i with
      | zero =>
        simp only [List.getD_cons_zero] at hzero
        simp only [addStreamer, if_pos hzero, List.set]
      | succ j =>
        have hs : s.fourcc ≠ 0 := by
          have := hfirst 0 (by omega)
          simpa using this
        simp only [addStreamer, if_neg hs, List.set]
        congr 1
        exact ih j (by simpa using hi) (by simpa using hzero)
          fun j2 hj2 => by simpa using hfirst (j2 + 1) (by omega)
  · intro table t st
    induction table with
    | nil => intro _; rfl
    | cons s rest ih =>
      intro hall
      have hs : s.fourcc ≠ 0 := hall s (List.mem_cons_self s rest)
      simp only [addStreamer, if_neg hs]
      congr 1
      exact ih fun e he => hall e (List.mem_cons_of_mem s he)

/-- Witness for C9 (amended): a table with one occupied and one free slot
stores into the free slot; the full table is left unchanged. -/
theorem addStreamer_first_free_slot_witness :
    ((1 : Nat) < ([⟨9, 3⟩, ⟨0, 0⟩] : List StreamerData).length ∧
      (([⟨9, 3⟩, ⟨0, 0⟩] : List StreamerData).getD 1 default).fourcc = 0 ∧
      addStreamer [⟨9, 3⟩, ⟨0, 0⟩] 2 7 =
        ([⟨9, 3⟩, ⟨0, 0⟩] : List StreamerData).set 1 ⟨7, 2⟩) ∧
    ((∀ e ∈ fullStreamerTable, e.fourcc ≠ 0) ∧
      addStreamer fullStreamerTable 2 7 = fullStreamerTable) :=
  ⟨⟨by decide, by decide,
      addStreamer_first_free_slot.1 [⟨9, 3⟩, ⟨0, 0⟩] 2 7 1 (by decide) (by decide)
        (by decide)⟩,
    ⟨by decide, addStreamer_first_free_slot.2 fullStreamerTable 2 7 (by decide)⟩⟩

/-! ## Job system (`src/IBEngine/IBJobs.cpp`)

The pool is modelled as a list of slots; a slot's `func` field is `none`
when the job is free (the source CASes the function pointer from null) and
otherwise carries the job description, abstracted over a payload type. -/

/-- One `Job` slot of the pool (`IBJobs.cpp` lines 128-134): the function
pointer (with its payload) and the `uint32_t` generation counter. -/
structure PoolJob (α : Type) where
  func : Option α
  generation : Nat
deriving DecidableEq, Repr

/-- A job handle (`IBJobs.cpp` line 464):
`(uint64(generation) << 32) | uint32(pool index)`. -/
def mkJobHandle (generation idx : Nat) : Nat :=
  ((generation % 2 ^ 32) <<< 32) ||| (idx % 2 ^ 32)

/-- `takeJob` (`IBJobs.cpp` lines 165-191): linear scan for the first slot
whose function pointer is null, claiming it with the description (`none`
when the pool is exhausted, where the source fires the fatal assertion at
line 185).  The payload write and queue index are part of the claimed
value; the generation is untouched. -/
def takeJob {α : Type} : List (PoolJob α) → α → Option (Nat × List (PoolJob α))
  | [], _ => none
  | j :: rest, f =>
    if j.func.isNone then some (0, ⟨some f, j.generation⟩ :: rest)
    else (takeJob rest f).map fun r => (r.1 + 1, j :: r.2)

/-- Generation field of pool slot `i`. -/
def jobGenAt {α : Type} (pool : List (PoolJob α)) (i : Nat) : Nat :=
  (pool.getD i ⟨none, 0⟩).generation

/-- `reserveJob` (`IBJobs.cpp` lines 461-465): take a slot, do not
enqueue, and return the handle built from the slot's current generation. -/
def reserveJob {α : Type} (pool : List (PoolJob α)) (f : α) :
    Option (Nat × List (PoolJob α)) :=
  (takeJob pool f).map fun r => (mkJobHandle (jobGenAt r.2 r.1) r.1, r.2)

/-- `launchJob(desc)` (`IBJobs.cpp` lines 495-503): take a slot, read the
generation, then enqueue.  Everything that can happen concurrently after
the generation read — the job running, completing, and its slot's
generation advancing — is abstracted as an arbitrary `interleave`
transformation applied after the handle value is fixed. -/
def launchJobModel {α : Type} (pool : List (PoolJob α)) (f : α)
    (interleave : List (PoolJob α) → List (PoolJob α)) :
    Option (Nat × List (PoolJob α)) :=
  (takeJob pool f).map fun r => (mkJobHandle (jobGenAt r.2 r.1) r.1, interleave r.2)

/-- `continueJob(desc, deps, n)` (`IBJobs.cpp` lines 467-475): take a
slot, read the generation, then register the dependencies (`waitJob`),
which may commit and run the job before the call returns — again
abstracted as `interleave`. -/
def continueJobModel {α : Type} (pool : List (PoolJob α)) (f : α)
    (interleave : List (PoolJob α) → List (PoolJob α)) :
    Option (Nat × List (PoolJob α)) :=
  (takeJob pool f).map fun r => (mkJobHandle (jobGenAt r.2 r.1) r.1, interleave r.2)

/-- Worker-side completion of slot `i` (`IBJobs.cpp` lines 380-389):
increment the generation (`uint32_t` wrap) and release the slot by
storing a null function pointer. -/
def completeJob {α : Type} (pool : List (PoolJob α)) (i : Nat) : List (PoolJob α) :=
  pool.set i ⟨none, (jobGenAt pool i + 1) % 2 ^ 32⟩

theorem takeJob_spec {α : Type} :
    ∀ (pool : List (PoolJob α)) (f : α) (i : Nat) (pool2 : List (PoolJob α)),
    takeJob pool f = some (i, pool2) →
    i < pool.length ∧ (pool.getD i ⟨none, 0⟩).func = none ∧
    (∀ j < i, (pool.getD j ⟨none, 0⟩).func ≠ none) ∧
    pool2 = pool.set i ⟨some f, (pool.getD i ⟨none, 0⟩).generation⟩ := by
  intro pool
  induction pool with
  | nil =>
    intro f i pool2 h
    exact Option.noConfusion h
  | cons j rest ih =>
    intro f i pool2 h
    by_cases hfree : j.func.isNone
    · simp only [takeJob, if_pos hfree] at h
      obtain ⟨hi, hp⟩ := Prod.mk.injEq _ _ _ _ ▸ Option.some.inj h
      subst hi
      refine ⟨by simp, ?_, by omega, ?_⟩
      · simpa [List.getD_cons_zero, Option.isNone_iff_eq_none] using hfree
      · obtain ⟨jf, jg⟩ := j
        simpa [List.set] using hp.symm
    · simp only [takeJob, if_neg hfree] at h
      match he : takeJob rest f with
      | none =>
        rw [he] at h
        exact Option.noConfusion h
      | some r =>
        rw [he] at h
        obtain ⟨hi, hp⟩ := Prod.mk.injEq _ _ _ _ ▸ Option.some.inj h
        obtain ⟨h1, h2, h3, h4⟩ := ih f r.1 r.2 (by rw [he])
        subst hi
        refine ⟨by simpa using Nat.succ_lt_succ h1, by simpa using h2, ?_, ?_⟩
        · intro j2 hj2
          cases j2 with
          | zero =>
            simpa [List.getD_cons_zero, Option.isNone_iff_eq_none] using hfree
          | succ j3 => simpa using h3 j3 (by omega)
        · rw [← hp, h4]
          rfl

theorem getD_set_self {α : Type} (l : List α) (i : Nat) (v d : α) (h : i < l.length) :
    (l.set i v).getD i d = v := by
  rw [List.getD_eq_getElem?_getD, List.getElem?_set_self (by simpa using h)]
  rfl

/-- C3: every job handle returned by `reserveJob`, `launchJob(desc)` and
`continueJob(desc, deps, n)` equals `(generation << 32) | pool_index`,
where the generation is the one read from the pool slot right after
taking it and before any enqueue: the returned value is independent of
whatever happens to the pool (`interleave`) between the generation read
and the return, the handle decomposes back into that generation and the
index of the slot, and the taken slot is the first free one. -/
theorem job_handle_snapshot {α : Type} (pool : List (PoolJob α)) (f : α)
    (i : Nat) (pool2 : List (PoolJob α)) (h : takeJob pool f = some (i, pool2)) :
    reserveJob pool f = some (mkJobHandle (jobGenAt pool i) i, pool2) ∧
    (∀ interleave, launchJobModel pool f interleave =
      some (mkJobHandle (jobGenAt pool i) i, interleave pool2)) ∧
    (∀ interleave, continueJobModel pool f interleave =
      some (mkJobHandle (jobGenAt pool i) i, interleave pool2)) ∧
    mkJobHandle (jobGenAt pool i) i =
      (jobGenAt pool i % 2 ^ 32) * 2 ^ 32 + i % 2 ^ 32 ∧
    mkJobHandle (jobGenAt pool i) i / 2 ^ 32 = jobGenAt pool i % 2 ^ 32 ∧
    mkJobHandle (jobGenAt pool i) i % 2 ^ 32 = i % 2 ^ 32 ∧
    (pool.getD i ⟨none, 0⟩).func = none ∧
    (∀ j < i, (pool.getD j ⟨none, 0⟩).func ≠ none) := by
  obtain ⟨hlen, hfree, hfirst, hset⟩ := takeJob_spec pool f i pool2 h
  have hgen : jobGenAt pool2 i = jobGenAt pool i := by
    rw [hset]
    unfold jobGenAt
    rw [getD_set_self _ _ _ _ hlen]
  have harith2 : mkJobHandle (jobGenAt pool i) i =
      2 ^ 32 * (jobGenAt pool i % 2 ^ 32) + i % 2 ^ 32 := by
    unfold mkJobHandle
    rw [Nat.shiftLeft_eq, Nat.mul_comm (jobGenAt pool i % 2 ^ 32) (2 ^ 32),
      ← Nat.mul_add_lt_is_or (Nat.mod_lt i (by norm_num)) _]
  have harith : mkJobHandle (jobGenAt pool i) i =
      (jobGenAt pool i % 2 ^ 32) * 2 ^ 32 + i % 2 ^ 32 := by
    rw [harith2]
    ring
  refine ⟨?_, ?_, ?_, harith, ?_, ?_, hfree, hfirst⟩
  · unfold reserveJob
    rw [h]
    simp [hgen]
  · intro interleave
    unfold launchJobModel
    rw [h]
    simp [hgen]
  · intro interleave
    unfold continueJobModel
    rw [h]
    simp [hgen]
  · rw [harith2, Nat.mul_add_div (by norm_num),
      Nat.div_eq_of_lt (Nat.mod_lt i (by norm_num)), Nat.add_zero]
  · rw [harith2, Nat.mul_add_mod, Nat.mod_mod_of_dvd i (dvd_refl (2 ^ 32))]

/-- Sample pool for the C3 witness: slot 0 busy, slot 1 free at
generation 5. -/
def samplePool : List (PoolJob Nat) := [⟨some 7, 3⟩, ⟨none, 5⟩]

/-- Pool after taking slot 1 of `samplePool` with payload 9. -/
def samplePoolTaken : List (PoolJob Nat) := [⟨some 7, 3⟩, ⟨some 9, 5⟩]

/-- Witness for C3: taking from `samplePool` claims slot 1 (generation
5); all three entry points return the same pre-enqueue handle, even when
the job completes (generation advance and slot release) before return. -/
theorem job_handle_snapshot_witness :
    takeJob samplePool 9 = some (1, samplePoolTaken) ∧
    reserveJob samplePool 9 = some (mkJobHandle 5 1, samplePoolTaken) ∧
    launchJobModel samplePool 9 (fun p => completeJob p 1) =
      some (mkJobHandle 5 1, completeJob samplePoolTaken 1) ∧
    continueJobModel samplePool 9 (fun p => completeJob p 1) =
      some (mkJobHandle 5 1, completeJob samplePoolTaken 1) ∧
    mkJobHandle 5 1 = 5 * 2 ^ 32 + 1 :=
  ⟨by decide,
    (job_handle_snapshot samplePool 9 1 samplePoolTaken (by decide)).1,
    (job_handle_snapshot samplePool 9 1 samplePoolTaken (by decide)).2.1 _,
    (job_handle_snapshot samplePool 9 1 samplePoolTaken (by decide)).2.2.1 _,
    by decide⟩

/-! ## Dependency wait counters (`src/IBEngine/IBJobs.cpp` lines 239-312
and 391-422, C2) -/

/-- The wait-counter claim of `waitJob` (`IBJobs.cpp` lines 242-250):
scan `WaitCounts` for the first counter CASable from 0, set it to
`dependencyCount + 1` (`none` models the fatal assertion when the wait
list is exhausted). -/
def firstFreeWaitIndex : List Nat → Nat → Option Nat
  | [], _ => none
  | c :: rest, i => if c = 0 then some i else firstFreeWaitIndex rest (i + 1)

/-- Claiming a wait counter: first zero slot set to `n + 1`. -/
def claimWaitCounter (counts : List Nat) (n : Nat) : Option (Nat × List Nat) :=
  match firstFreeWaitIndex counts 0 with
  | none => none
  | some i => some (i, counts.set i (n + 1))

/-- One dependency completion (`IBJobs.cpp` lines 413-418, mirrored at
lines 302-308): atomically decrement the wait counter; exactly when the
decrement yields 1 the waiting job is committed (flag `true`) and the
counter is stored back to 0. -/
def signalStep (c : Nat) : Nat × Bool :=
  if c - 1 = 1 then (0, true) else (c - 1, false)

/-- Iterated dependency completions: counter value and whether any step
enqueued the waiting job. -/
def signalIter : Nat → Nat → Nat × Bool
  | 0, c => (c, false)
  | k + 1, c => ((signalIter k (signalStep c).1).1,
      (signalStep c).2 || (signalIter k (signalStep c).1).2)

theorem firstFreeWaitIndex_spec :
    ∀ (l : List Nat) (s i : Nat), firstFreeWaitIndex l s = some i →
    s ≤ i ∧ i - s < l.length ∧ l.getD (i - s) 0 = 0 ∧
    ∀ j < i - s, l.getD j 0 ≠ 0 := by
  intro l
  induction l with
  | nil =>
    intro s i h
    exact Option.noConfusion h
  | cons c rest ih =>
    intro s i h
    by_cases hc : c = 0
    · simp only [firstFreeWaitIndex, if_pos hc] at h
      have hi : i = s := (Option.some.inj h).symm
      subst hi
      refine ⟨Nat.le_refl i, by simp, ?_, by omega⟩
      rw [Nat.sub_self]
      simpa using hc
    · simp only [firstFreeWaitIndex, if_neg hc] at h
      obtain ⟨h1, h2, h3, h4⟩ := ih (s + 1) i h
      refine ⟨by omega, by simp; omega, ?_, ?_⟩
      · have he : i - s = (i - (s + 1)) + 1 := by omega
        rw [he]
        simpa using h3
      · intro j hj
        cases j with
        | zero => simpa using hc
        | succ j2 =>
          have : j2 < i - (s + 1) := by omega
          simpa using h4 j2 this

theorem signalIter_lt : ∀ (k n : Nat), k < n → signalIter k (n + 1) = (n + 1 - k, false) := by
  intro k
  induction k with
  | zero =>
    intro n _
    simp [signalIter]
  | succ k ih =>
    intro n hk
    have hn2 : 2 ≤ n := by omega
    have hstep : signalStep (n + 1) = (n, false) := by
      unfold signalStep
      rw [if_neg (by omega)]
      simp
    have hrec : signalIter k n = (n - k, false) := by
      have h1 := ih (n - 1) (by omega)
      rw [show n - 1 + 1 = n by omega] at h1
      exact h1
    simp only [signalIter, hstep, hrec]
    simp

theorem signalIter_final : ∀ n, 1 ≤ n → signalIter n (n + 1) = (0, true) := by
  intro n
  induction n with
  | zero => intro h; omega
  | succ m ih =>
    intro _
    by_cases hm : 1 ≤ m
    · have hstep : signalStep (m + 1 + 1) = (m + 1, false) := by
        unfold signalStep
        rw [if_neg (by omega)]
        simp
      simp [signalIter, hstep, ih hm]
    · have hm0 : m = 0 := by omega
      subst hm0
      decide

/-- C2: registering a job with `n` dependencies claims the first free wait
counter by CAS from 0 to `n + 1`; each dependency completion decrements
the counter, no completion before the last one enqueues the job, and
exactly the `n`-th decrement brings the counter to 1 — the sentinel
meaning all dependencies are done — whereupon the waiting job is enqueued
and the counter is reset to 0, returning it to the pool. -/
theorem wait_counter_protocol (counts : List Nat) (n i : Nat) (counts2 : List Nat)
    (hclaim : claimWaitCounter counts n = some (i, counts2)) :
    (i < counts.length ∧ counts.getD i 0 = 0 ∧ (∀ j < i, counts.getD j 0 ≠ 0) ∧
      counts2 = counts.set i (n + 1)) ∧
    (∀ k < n, signalIter k (n + 1) = (n + 1 - k, false)) ∧
    (1 ≤ n → signalIter n (n + 1) = (0, true)) := by
  have hfi : ∃ i0, firstFreeWaitIndex counts 0 = some i0 ∧ i0 = i ∧
      counts2 = counts.set i (n + 1) := by
    unfold claimWaitCounter at hclaim
    match he : firstFreeWaitIndex counts 0 with
    | none =>
      rw [he] at hclaim
      exact Option.noConfusion hclaim
    | some i0 =>
      rw [he, Option.some.injEq, Prod.mk.injEq] at hclaim
      obtain ⟨h1, h2⟩ := hclaim
      exact ⟨i0, rfl, h1, by rw [← h1, ← h2]⟩
  obtain ⟨i0, he, hi0, hc2⟩ := hfi
  subst hi0
  obtain ⟨_, hlen, hzero, hfirst⟩ := firstFreeWaitIndex_spec counts 0 i0 he
  simp only [Nat.sub_zero] at hlen hzero hfirst
  exact ⟨⟨hlen, hzero, hfirst, hc2⟩, fun k hk => signalIter_lt k n hk,
    fun hn => signalIter_final n hn⟩

/-- Witness for C2: claiming a counter for 2 dependencies in the pool
`[3, 0, 7]` takes index 1 (CAS 0 to 3), and the second decrement brings
the counter to 1, enqueues the job and resets the counter to 0. -/
theorem wait_counter_protocol_witness :
    claimWaitCounter [3, 0, 7] 2 = some (1, [3, 3, 7]) ∧
    ((1 < ([3, 0, 7] : List Nat).length ∧ ([3, 0, 7] : List Nat).getD 1 0 = 0 ∧
      (∀ j < 1, ([3, 0, 7] : List Nat).getD j 0 ≠ 0) ∧
      ([3, 3, 7] : List Nat) = ([3, 0, 7] : List Nat).set 1 (2 + 1)) ∧
    (∀ k < 2, signalIter k (2 + 1) = (2 + 1 - k, false)) ∧
    (1 ≤ 2 → signalIter 2 (2 + 1) = (0, true))) :=
  ⟨by decide, wait_counter_protocol [3, 0, 7] 2 1 [3, 3, 7] (by decide)⟩

/-! ## Asset layer (`src/IBEngine/IBAsset.cpp`) -/

/-- `InvalidAsset.Value = UINT64_MAX` (`IBAsset.h` line 27). -/
def InvalidAssetValue : Nat := 2 ^ 64 - 1

/-- The fields of the heap `Resource` record
(`IBAsset.cpp` lines 60-68) that `releaseResourceAsync` consults:
the loaded asset handle and the loading-job handle. -/
structure ResourceRec where
  assetValue : Nat
  loadingJob : Nat
deriving DecidableEq, Repr

/-- One `ResourceEntry` slot of the resource hash table
(`IBAsset.cpp` lines 70-77): a refcount and the published record. -/
structure ResourceEntry where
  refCount : Nat
  resource : Option ResourceRec
deriving DecidableEq, Repr

/-- The four side effects of the `onUnload` job body
(`IBAsset.cpp` lines 320-326). -/
inductive UnloadEffect where
  | unloadAssetCall
  | unmapFileCall
  | closeFileCall
  | deallocateCall
deriving DecidableEq, Repr

/-- Effect list of the `onUnload` lambda, in source order:
`unloadThreadSafe`, `unmapFile`, `closeFile`, `deallocate`. -/
def onUnloadEffects : List UnloadEffect :=
  [UnloadEffect.unloadAssetCall, UnloadEffect.unmapFileCall,
    UnloadEffect.closeFileCall, UnloadEffect.deallocateCall]

/-- How the unload job is scheduled: as a continuation of the loading job
(`continueJob(onUnload, &resource->LoadingJob, 1)`) or launched directly
(`launchJob(onUnload)`). -/
inductive UnloadSchedule where
  | asContinuation (dependency : Nat) (effects : List UnloadEffect)
  | launched (effects : List UnloadEffect)
deriving DecidableEq, Repr

/-- `releaseResourceAsync` (`IBAsset.cpp` lines 288-340): decrement the
slot's refcount; when the post-decrement value is 0, schedule the unload
job — as a continuation of the loading job when the asset handle is still
the invalid sentinel, otherwise launched directly — and return it; when
nonzero, schedule nothing (the returned `JobHandle{}` is the empty
handle, modelled as `none`).  The `none` resource branch is unreachable:
the source spins at lines 292-294 until the record is published. -/
def releaseResourceAsync (e : ResourceEntry) : ResourceEntry × Option UnloadSchedule :=
  match e.resource with
  | none => (e, none)
  | some r =>
    if e.refCount - 1 = 0 then
      if r.assetValue = InvalidAssetValue then
        (⟨e.refCount - 1, e.resource⟩,
          some (UnloadSchedule.asContinuation r.loadingJob onUnloadEffects))
      else
        (⟨e.refCount - 1, e.resource⟩, some (UnloadSchedule.launched onUnloadEffects))
    else (⟨e.refCount - 1, e.resource⟩, none)

/-- C6: `releaseResourceAsync` decrements the resource's refcount; when
the post-decrement value is 0 it schedules an unload job whose body calls
`unloadThreadSafe` exactly once, unmaps and closes the file and
deallocates the record — registered as a continuation of the loading job
exactly when the asset handle is still the invalid sentinel, otherwise
launched directly — and returns that job; when the post-decrement value
is nonzero it changes no resource state beyond the refcount and returns
the empty handle (no scheduled job). -/
theorem releaseResource_behaviour (e : ResourceEntry) (r : ResourceRec)
    (hres : e.resource = some r) (_hpos : 0 < e.refCount) :
    (releaseResourceAsync e).1.refCount = e.refCount - 1 ∧
    (releaseResourceAsync e).1.resource = e.resource ∧
    (e.refCount - 1 = 0 →
      (r.assetValue = InvalidAssetValue →
        (releaseResourceAsync e).2 =
          some (UnloadSchedule.asContinuation r.loadingJob onUnloadEffects)) ∧
      (r.assetValue ≠ InvalidAssetValue →
        (releaseResourceAsync e).2 = some (UnloadSchedule.launched onUnloadEffects)) ∧
      onUnloadEffects.count UnloadEffect.unloadAssetCall = 1 ∧
      onUnloadEffects.count UnloadEffect.unmapFileCall = 1 ∧
      onUnloadEffects.count UnloadEffect.closeFileCall = 1 ∧
      onUnloadEffects.count UnloadEffect.deallocateCall = 1) ∧
    (e.refCount - 1 ≠ 0 → (releaseResourceAsync e).2 = none) := by
  by_cases hz : e.refCount - 1 = 0
  · by_cases hv : r.assetValue = InvalidAssetValue
    · have hrel : releaseResourceAsync e =
          (⟨e.refCount - 1, e.resource⟩,
            some (UnloadSchedule.asContinuation r.loadingJob onUnloadEffects)) := by
        simp only [releaseResourceAsync, hres, if_pos hz, if_pos hv]
      rw [hrel]
      exact ⟨rfl, rfl, fun _ => ⟨fun _ => rfl, fun hn => absurd hv hn,
        by decide, by decide, by decide, by decide⟩, fun hn => absurd hz hn⟩
    · have hrel : releaseResourceAsync e =
          (⟨e.refCount - 1, e.resource⟩,
            some (UnloadSchedule.launched onUnloadEffects)) := by
        simp only [releaseResourceAsync, hres, if_pos hz, if_neg hv]
      rw [hrel]
      exact ⟨rfl, rfl, fun _ => ⟨fun hy => absurd hy hv, fun _ => rfl,
        by decide, by decide, by decide, by decide⟩, fun hn => absurd hz hn⟩
  · have hrel : releaseResourceAsync e = (⟨e.refCount - 1, e.resource⟩, none) := by
      simp only [releaseResourceAsync, hres, if_neg hz]
    rw [hrel]
    exact ⟨rfl, rfl, fun hy => absurd hy hz, fun _ => rfl⟩

/-- Witness for C6: a still-loading resource (asset handle is the invalid
sentinel, loading job 42) whose last reference is released schedules the
unload as a continuation of job 42. -/
theorem releaseResource_behaviour_witness :
    (ResourceEntry.mk 1 (some ⟨InvalidAssetValue, 42⟩)).resource =
      some ⟨InvalidAssetValue, 42⟩ ∧
    0 < (ResourceEntry.mk 1 (some ⟨InvalidAssetValue, 42⟩)).refCount ∧
    ((releaseResourceAsync ⟨1, some ⟨InvalidAssetValue, 42⟩⟩).1.refCount = 1 - 1 ∧
      (releaseResourceAsync ⟨1, some ⟨InvalidAssetValue, 42⟩⟩).2 =
        some (UnloadSchedule.asContinuation 42 onUnloadEffects)) :=
  ⟨rfl, by decide,
    ((releaseResource_behaviour ⟨1, some ⟨InvalidAssetValue, 42⟩⟩
        ⟨InvalidAssetValue, 42⟩ rfl (by decide)).1),
    ((releaseResource_behaviour ⟨1, some ⟨InvalidAssetValue, 42⟩⟩
        ⟨InvalidAssetValue, 42⟩ rfl (by decide)).2.2.1 rfl).1 rfl⟩

/-! ## Path hashing and load deduplication (`src/IBEngine/IBAsset.cpp`
lines 33-42 and 224-286, C7) -/

/-- `MaxTableEntries` (`IBAsset.cpp` line 76). -/
def MaxTableEntries : Nat := 1024 * 1024

/-- The value a path byte contributes to the hash.  The source iterates
`char const *path` and computes `hash * 33 + *path` on MSVC, where `char`
is signed: bytes at or above 128 are sign-extended, contributing
`byte - 256` modulo `2 ^ 32`. -/
def signExtendChar (b : Nat) : Nat := if b < 128 then b else 2 ^ 32 - 256 + b

/-- The hash loop (`IBAsset.cpp` lines 33-42): `h` starts at 5381 and each
byte updates `h = h * 33 + signExtendChar byte` on `uint32_t`.  Paths are
C strings, so the byte list contains the nonzero bytes before the
terminator. -/
def hashChars : List Nat → Nat → Nat
  | [], h => h
  | b :: rest, h => hashChars rest ((h * 33 + signExtendChar b) % 2 ^ 32)

/-- The `ResourceHandle` hash of a path. -/
def pathHash (path : List Nat) : Nat := hashChars path 5381

/-- Modelled from the claim's words: the textbook djb2 loop
`h = h * 33 + byte` over unsigned path bytes, for comparison with
`pathHash`. -/
def djb2Chars : List Nat → Nat → Nat
  | [], h => h
  | b :: rest, h => djb2Chars rest ((h * 33 + b) % 2 ^ 32)

/-- Modelled from the claim's words: djb2 of the path bytes from 5381. -/
def djb2Hash (path : List Nat) : Nat := djb2Chars path 5381

/-- Resource table slot of a path (`IBAsset.cpp` line 227). -/
def tableSlot (path : List Nat) : Nat := pathHash path % MaxTableEntries

/-- `loadResourceAsync` (`IBAsset.cpp` lines 224-286) restricted to the
slot of the given path: increment the refcount; when the increment
returns 1 this call is the elected loader — it allocates the record
(asset handle starts at the invalid sentinel, loading job as given) and
starts the binary-load pipeline — otherwise the existing record is
reused.  Returns the updated slot, the `ResourceHandle` hash passed to
the callback, and whether this call ran the loader. -/
def loadResourceAsyncModel (path : List Nat) (loaderJob : Nat) (e : ResourceEntry) :
    ResourceEntry × Nat × Bool :=
  if e.refCount + 1 = 1 then
    (⟨e.refCount + 1, some ⟨InvalidAssetValue, loaderJob⟩⟩, pathHash path, true)
  else
    (⟨e.refCount + 1, e.resource⟩, pathHash path, false)

/-- Counterexample to C7 as stated: for the one-byte path `0xFF` the
source hash adds the sign-extended `char` value, so the `ResourceHandle`
hash is 177572 while the djb2 hash of the path bytes is 177828. -/
theorem pathHash_differs_from_djb2 :
    pathHash [255] = 177572 ∧ djb2Hash [255] = 177828 ∧
    (loadResourceAsyncModel [255] 0 ⟨0, none⟩).2.1 ≠ djb2Hash [255] := by
  refine ⟨by decide, by decide, by decide⟩

theorem hashChars_eq_djb2Chars (path : List Nat) :
    ∀ h, (∀ b ∈ path, b < 128) → hashChars path h = djb2Chars path h := by
  induction path with
  | nil => intro h _; rfl
  | cons b rest ih =>
    intro h hall
    have hb : b < 128 := hall b (List.mem_cons_self b rest)
    simp only [hashChars, djb2Chars, signExtendChar, if_pos hb]
    exact ih _ fun x hx => hall x (List.mem_cons_of_mem b hx)

/-- C7 as amended: the `ResourceHandle` for a path is the 32-bit
`h = h * 33 + c` hash of the path characters starting from 5381, where
each character contributes its MSVC `char` (signed, sign-extended) value;
for paths whose bytes are all below 128 this is exactly the djb2 hash of
the path bytes.  The table slot is that hash modulo the table size, any
two `loadResourceAsync` calls with the same path deliver the same
`ResourceHandle`, and exactly one of them — the one whose refcount
increment returns 1 — allocates the record and runs the loader. -/
theorem resource_hash_and_dedup (path : List Nat) (loaderJob : Nat) :
    (∀ e : ResourceEntry, (loadResourceAsyncModel path loaderJob e).2.1 = pathHash path) ∧
    ((∀ b ∈ path, b < 128) → pathHash path = djb2Hash path) ∧
    tableSlot path = pathHash path % (1024 * 1024) ∧
    (∀ e0 : ResourceEntry, e0.refCount = 0 →
      (loadResourceAsyncModel path loaderJob e0).2.2 = true ∧
      (loadResourceAsyncModel path loaderJob
        (loadResourceAsyncModel path loaderJob e0).1).2.2 = false ∧
      (loadResourceAsyncModel path loaderJob e0).2.1 =
        (loadResourceAsyncModel path loaderJob
          (loadResourceAsyncModel path loaderJob e0).1).2.1) := by
  refine ⟨?_, hashChars_eq_djb2Chars path 5381, rfl, ?_⟩
  · intro e
    unfold loadResourceAsyncModel
    by_cases h : e.refCount + 1 = 1
    · rw [if_pos h]
    · rw [if_neg h]
  · intro e0 h0
    have h1 : e0.refCount + 1 = 1 := by omega
    have hfirst : loadResourceAsyncModel path loaderJob e0 =
        (⟨e0.refCount + 1, some ⟨InvalidAssetValue, loaderJob⟩⟩, pathHash path, true) := by
      unfold loadResourceAsyncModel
      rw [if_pos h1]
    refine ⟨by rw [hfirst], ?_, ?_⟩
    · rw [hfirst]
      unfold loadResourceAsyncModel
      rw [if_neg (by simp)]
    · rw [hfirst]
      unfold loadResourceAsyncModel
      by_cases h2 : (ResourceEntry.mk (e0.refCount + 1)
          (some ⟨InvalidAssetValue, loaderJob⟩)).refCount + 1 = 1
      · rw [if_pos h2]
      · rw [if_neg h2]

/-- Witness for C7 (amended): the ASCII path `Box` (bytes 66, 111, 120)
satisfies the ASCII hypothesis, and from an empty slot the first call
runs the loader while the second does not, both delivering the same
hash. -/
theorem resource_hash_and_dedup_witness :
    ((∀ b ∈ ([66, 111, 120] : List Nat), b < 128) →
      pathHash [66, 111, 120] = djb2Hash [66, 111, 120]) ∧
    ((ResourceEntry.mk 0 none).refCount = 0 →
      (loadResourceAsyncModel [66, 111, 120] 9 ⟨0, none⟩).2.2 = true ∧
      (loadResourceAsyncModel [66, 111, 120] 9
        (loadResourceAsyncModel [66, 111, 120] 9 ⟨0, none⟩).1).2.2 = false ∧
      (loadResourceAsyncModel [66, 111, 120] 9 ⟨0, none⟩).2.1 =
        (loadResourceAsyncModel [66, 111, 120] 9
          (loadResourceAsyncModel [66, 111, 120] 9 ⟨0, none⟩).1).2.1) :=
  ⟨(resource_hash_and_dedup [66, 111, 120] 9).2.1,
    (resource_hash_and_dedup [66, 111, 120] 9).2.2.2 ⟨0, none⟩⟩

end IceBox
